import Mathlib

/-!
Verification of the `safedelete` library (files `safedelete/models.py` and
`safedelete/queryset.py`) against its natural-language specification.

The development is a shallow embedding: each Python function that the claims
touch is translated into an executable Lean definition over an explicit state
(records, query states, worlds).  Machine integers are modelled by `Int`/`Nat`
(no overflow is relevant here), timestamps by `Nat`, and fallible operations
return `Except`/`Option`.  Signals (`pre_softdelete`, `post_softdelete`,
`post_undelete`) and field writes are modelled as an explicit event trace.

Parts of the repository that the two provided source files import but that are
not themselves provided (`config.py`, `managers.py`, `signals.py`, `utils.py`)
are modelled from the specification; each such definition carries a doc
comment starting with `Modelled from the spec:`.
-/

namespace Safedelete

/-- Modelled from the spec: the five deletion policies imported from
`config.py` (`NO_DELETE`, `SOFT_DELETE`, `SOFT_DELETE_CASCADE`,
`HARD_DELETE`, `HARD_DELETE_NOCASCADE`), spec §3 "Data model / policy". -/
inductive Pol where
  | noDelete
  | softDelete
  | softDeleteCascade
  | hardDelete
  | hardDeleteNocascade
deriving DecidableEq, Repr

/-- Modelled from the spec: the four query visibility modes imported from
`config.py` (`DELETED_INVISIBLE`, `DELETED_VISIBLE`, `DELETED_ONLY_VISIBLE`,
`DELETED_VISIBLE_BY_FIELD`), spec §3 "Query Visibility Mode". -/
inductive Vis where
  | deletedInvisible
  | deletedVisible
  | deletedOnlyVisible
  | deletedVisibleByField
deriving DecidableEq, Repr

/-! ## Instance-level model (`SafeDeleteModel.save` / single-record soft delete)

`models.py` lines 75-148.  An in-memory model instance carries a primary key
(`None` before the first insert), the `deleted` timestamp field and the
class-level `_safedelete_policy`.  Observable effects (field assignments,
`super().save()` persistence, signals) are recorded as a trace. -/

/-- Observable effects of instance-level `save`/`delete`, in program order.
`fieldDeletedSet v` is the in-memory assignment `self.deleted = v`;
`persistRow` is the `super().save()` database write; the `sig*` events are
the `pre_softdelete`, `post_softdelete` and `post_undelete` signal sends. -/
inductive Ev where
  | fieldDeletedSet (v : Option Nat)
  | persistRow
  | sigPreSoftdelete
  | sigPostSoftdelete
  | sigPostUndelete
deriving DecidableEq, Repr

/-- A `SafeDeleteModel` instance: `pk` (`None` if never saved), the
`deleted` timestamp field, and the class-level `_safedelete_policy`
(`models.py` lines 64-66). -/
structure Inst where
  pk : Option Nat
  deleted : Option Nat
  policy : Pol
deriving DecidableEq, Repr

/-- Python truthiness of `self.pk`: `None` and `0` are falsy. -/
def pkTruthy (i : Inst) : Bool :=
  match i.pk with
  | none => false
  | some n => n != 0

/-- `SafeDeleteModel.save(keep_deleted=False, **kwargs)`, `models.py` lines
75-103.  When `keep_deleted` is false the instance's `deleted` field is set
to `None` (recording `was_undeleted` when the field and the pk were both
truthy), the row is persisted, and `post_undelete` is sent iff
`was_undeleted`.  When `keep_deleted` is true only the persist happens. -/
def save (i : Inst) (keepDeleted : Bool) : Inst × List Ev :=
  if keepDeleted then
    (i, [Ev.persistRow])
  else
    let wasUndeleted := i.deleted.isSome && pkTruthy i
    ({ i with deleted := none },
      [Ev.fieldDeletedSet none, Ev.persistRow]
        ++ (if wasUndeleted then [Ev.sigPostUndelete] else []))

/-- `current_policy = self._safedelete_policy if (force_policy is None) else
force_policy`, `models.py` line 132. -/
def effectivePolicy (i : Inst) (forcePolicy : Option Pol) : Pol :=
  forcePolicy.getD i.policy

/-- `SafeDeleteModel.delete(force_policy, **kwargs)`, `models.py` lines
125-148, restricted to the two policies whose effect is expressible on a
single in-memory instance.  `NO_DELETE` returns immediately; `SOFT_DELETE`
assigns `self.deleted = timezone.now()`, sends `pre_softdelete`, calls
`self.save(keep_deleted=True)` and sends `post_softdelete`.  The remaining
policies (hard deletes and the cascade) remove rows or touch related
records and are modelled in the world-level engines below; for them this
instance-level function returns `none`. -/
def delete (i : Inst) (forcePolicy : Option Pol) (now : Nat) :
    Option (Inst × List Ev) :=
  match effectivePolicy i forcePolicy with
  | Pol.noDelete => some (i, [])
  | Pol.softDelete =>
      let i1 := { i with deleted := some now }
      let s := save i1 true
      some (s.1, [Ev.fieldDeletedSet (some now), Ev.sigPreSoftdelete]
        ++ s.2 ++ [Ev.sigPostSoftdelete])
  | _ => none

/-! ## Cascade world (`SOFT_DELETE_CASCADE` delete and undelete)

`models.py` lines 105-123 and 164-170.  A world is a finite table of
safedelete rows plus the relationship graph consumed by `related_objects`.
`related_objects` lives in `utils.py`, which is not among the provided
sources. -/

/-- World-level observable events (same shapes as `Ev`, tagged with the
primary key of the affected row). -/
inductive CEv where
  | cFieldDeletedSet (pk : Nat) (v : Option Nat)
  | cPersistRow (pk : Nat)
  | cSigPreSoftdelete (pk : Nat)
  | cSigPostSoftdelete (pk : Nat)
  | cSigPostUndelete (pk : Nat)
deriving DecidableEq, Repr

/-- A persisted safedelete row: primary key, `deleted` timestamp, and the
class-level policy of its model class.  Every row in the cascade world is a
safedelete row, so the `is_safedelete_cls` guard at the two call sites is
always true in this model. -/
structure CRec where
  pk : Nat
  deleted : Option Nat
  policy : Pol
deriving DecidableEq, Repr

/-- Modelled from the spec: the relationship graph used by
`related_objects` (`utils.py`, not provided) — "directed edges from a record
to records that reference it (foreign-key and similar reverse relations),
used only for cascade traversal" (spec §3).  `rel` is an adjacency list from
a row's pk to the pks of its related rows. -/
structure CWorld where
  recs : List CRec
  rel : List (Nat × List Nat)
deriving DecidableEq, Repr

/-- Look a row up by primary key. -/
def CWorld.find (w : CWorld) (pk : Nat) : Option CRec :=
  w.recs.find? (fun r => r.pk == pk)

/-- Modelled from the spec: `related_objects(self)` (`utils.py`, not
provided) yields the records related to `self` per the relationship
graph. -/
def relatedOf (w : CWorld) (pk : Nat) : List Nat :=
  ((w.rel.find? (fun p => p.1 == pk)).map Prod.snd).getD []

/-- Write the `deleted` field of the row(s) with the given pk (the
persistence effect of saving an instance whose `deleted` field changed). -/
def setDeletedField (w : CWorld) (pk : Nat) (v : Option Nat) : CWorld :=
  { w with
    recs := w.recs.map (fun r => if r.pk = pk then { r with deleted := v } else r) }

/-- The `SOFT_DELETE` branch of `SafeDeleteModel.delete` (lines 139-148)
applied to a persisted row: assign `deleted = now`, send `pre_softdelete`,
persist via `save(keep_deleted=True)`, send `post_softdelete`. -/
def softDeleteRow (w : CWorld) (pk : Nat) (now : Nat) : CWorld × List CEv :=
  (setDeletedField w pk (some now),
    [CEv.cFieldDeletedSet pk (some now), CEv.cSigPreSoftdelete pk,
     CEv.cPersistRow pk, CEv.cSigPostSoftdelete pk])

/-- One iteration of the `SOFT_DELETE_CASCADE` delete loop (`models.py`
lines 166-168): `if is_safedelete_cls(related.__class__) and not
related.deleted: related.delete(force_policy=SOFT_DELETE)`. -/
def cascadeStep (now : Nat) (acc : CWorld × List CEv) (q : Nat) :
    CWorld × List CEv :=
  match acc.1.find q with
  | none => acc
  | some s =>
      if s.deleted.isSome then acc
      else
        let d := softDeleteRow acc.1 q now
        (d.1, acc.2 ++ d.2)

/-- The `SOFT_DELETE_CASCADE` branch of `SafeDeleteModel.delete`
(`models.py` lines 164-170): soft-delete (forced `SOFT_DELETE`) every
related record that is not already deleted, then soft-delete the record
itself via `self.delete(force_policy=SOFT_DELETE)`. -/
def deleteCascade (w : CWorld) (pk : Nat) (now : Nat) : CWorld × List CEv :=
  let a := (relatedOf w pk).foldl (cascadeStep now) (w, [])
  let d := softDeleteRow a.1 pk now
  (d.1, a.2 ++ d.2)

/-- Errors of the fueled undelete: `assertFail` is the `assert self.deleted`
precondition violation (`models.py` line 117); `fuelOut` marks fuel
exhaustion of the fueled embedding (no Python counterpart — the termination
theorem shows enough fuel always exists). -/
inductive CErr where
  | assertFail
  | fuelOut
deriving DecidableEq, Repr

/-- Number of soft-deleted rows in the world. -/
def deletedCount (w : CWorld) : Nat :=
  (w.recs.filter (fun r => r.deleted.isSome)).length

mutual

/-- `SafeDeleteModel.undelete(force_policy=None)`, `models.py` lines
105-123: `current_policy = force_policy or self._safedelete_policy`; assert
`self.deleted`; `self.save(keep_deleted=False)` (clears the field, persists,
and sends `post_undelete` since a persisted row's pk is truthy — modelled as
`pk ≠ 0`); then, for `SOFT_DELETE_CASCADE` only, recursively undelete every
related safedelete record that is currently deleted.  `fuel` bounds the
recursion depth of the embedding. -/
def undeleteF : Nat → CWorld → Nat → Option Pol → Except CErr (CWorld × List CEv)
  | 0, _, _, _ => .error CErr.fuelOut
  | fuel + 1, w, pk, forcePolicy =>
      match w.find pk with
      | none => .ok (w, [])
      | some r =>
          if r.deleted.isSome then
            let w1 := setDeletedField w pk none
            let tr1 := [CEv.cFieldDeletedSet pk none, CEv.cPersistRow pk]
              ++ (if pk != 0 then [CEv.cSigPostUndelete pk] else [])
            if forcePolicy.getD r.policy = Pol.softDeleteCascade then
              match undeleteList fuel w1 (relatedOf w1 pk) with
              | .error e => .error e
              | .ok (w2, tr2) => .ok (w2, tr1 ++ tr2)
            else .ok (w1, tr1)
          else .error CErr.assertFail
termination_by fuel _ _ _ => (fuel, 0, 0)

/-- The loop of `SafeDeleteModel.undelete`'s cascade branch (`models.py`
lines 120-123): `for related in related_objects(self): if
is_safedelete_cls(related.__class__) and related.deleted:
related.undelete()`. -/
def undeleteList : Nat → CWorld → List Nat → Except CErr (CWorld × List CEv)
  | _, w, [] => .ok (w, [])
  | fuel, w, q :: qs =>
      match w.find q with
      | none => undeleteList fuel w qs
      | some s =>
          if s.deleted.isSome then
            match undeleteF fuel w q none with
            | .error e => .error e
            | .ok (w1, tr1) =>
                match undeleteList fuel w1 qs with
                | .error e => .error e
                | .ok (w2, tr2) => .ok (w2, tr1 ++ tr2)
          else undeleteList fuel w qs
termination_by fuel _ qs => (fuel, 1, qs.length)

end

/-! ## Query-object model (`queryset.py` lines 15-163) -/

/-- A condition held by a query object's underlying query: the injected
`Q(deleted__isnull=b)` visibility condition (`queryset.py` lines 117-123) or
a user filter identified by its lookup keys. -/
inductive QCond where
  | deletedIsnull (b : Bool)
  | userFilter (keys : List String)
deriving DecidableEq, Repr

/-- A `SafeDeleteQueryset`'s observable state: `_safedelete_visibility` and
`_safedelete_visibility_field` (set by the manager),
`_safedelete_force_visibility` (transient override, absent = `none`),
the `_safedelete_filter_applied` latch (line 23), whether a slice/limit has
been taken (`self.query.can_filter()` is then false), and the accumulated
query conditions. -/
structure QState where
  visibility : Vis
  visibilityField : String
  forceVisibility : Option Vis
  filterApplied : Bool
  sliced : Bool
  conds : List QCond
deriving DecidableEq, Repr

/-- `SafeDeleteQueryset._filter_visibility`, `queryset.py` lines 100-125:
effective visibility is the forced one if set, else the queryset's; if the
latch is not set and the effective visibility is one of `DELETED_INVISIBLE`,
`DELETED_VISIBLE_BY_FIELD`, `DELETED_ONLY_VISIBLE`, assert that no slice was
taken, inject `Q(deleted__isnull = visibility in (DELETED_INVISIBLE,
DELETED_VISIBLE_BY_FIELD))` and set the latch; otherwise do nothing. -/
def filterVisibility (s : QState) : Except Unit QState :=
  let visibility := s.forceVisibility.getD s.visibility
  if !s.filterApplied
      && (visibility == Vis.deletedInvisible
          || visibility == Vis.deletedVisibleByField
          || visibility == Vis.deletedOnlyVisible) then
    if s.sliced then .error ()
    else .ok { s with
      conds := s.conds ++ [QCond.deletedIsnull
        (visibility == Vis.deletedInvisible || visibility == Vis.deletedVisibleByField)],
      filterApplied := true }
  else .ok s

/-- `SafeDeleteQueryset._clone`, `queryset.py` lines 152-163: Django clones
the underlying query (conditions, slice marks), then the safedelete state is
copied over: `_safedelete_visibility`, `_safedelete_visibility_field`,
`_safedelete_filter_applied`, and `_safedelete_force_visibility` when
set. -/
def qclone (s : QState) : QState :=
  { visibility := s.visibility
    visibilityField := s.visibilityField
    forceVisibility := s.forceVisibility
    filterApplied := s.filterApplied
    sliced := s.sliced
    conds := s.conds }

/-- `SafeDeleteQueryset._check_field_filter`, `queryset.py` lines 74-84:
under `DELETED_VISIBLE_BY_FIELD`, if the visibility field appears among the
lookup keys, force `DELETED_VISIBLE` on the receiving queryset. -/
def checkFieldFilter (s : QState) (kwargs : List String) : QState :=
  if s.visibility == Vis.deletedVisibleByField
      && kwargs.contains s.visibilityField then
    { s with forceVisibility := some Vis.deletedVisible }
  else s

/-- `SafeDeleteQueryset.filter`, `queryset.py` lines 86-90: clone, run
`_check_field_filter` on the clone, delegate to Django's `filter` (a further
clone extended with the user condition).  The pair is (caller after the
call, returned queryset). -/
def qfilter (s : QState) (kwargs : List String) : QState × QState :=
  let c := checkFieldFilter (qclone s) kwargs
  (s, { c with conds := c.conds ++ [QCond.userFilter kwargs] })

/-- `SafeDeleteQueryset.get`, `queryset.py` lines 92-98: clone, run
`_check_field_filter` then `_filter_visibility` on the clone (which may hit
the slice assertion), then delegate to Django's `get` with the user lookup.
The pair is (caller after the call, outcome on the clone). -/
def qget (s : QState) (kwargs : List String) : QState × Except Unit QState :=
  let c := checkFieldFilter (qclone s) kwargs
  match filterVisibility c with
  | .error e => (s, .error e)
  | .ok c' => (s, .ok { c' with conds := c'.conds ++ [QCond.userFilter kwargs] })

/-- `SafeDeleteQueryset.all(force_visibility=None)`, `queryset.py` lines
59-72: when `force_visibility` is not `None` it is stored on `self` itself
before Django's `all()` clones the queryset.  The pair is (caller after the
call, returned queryset). -/
def qall (s : QState) (forceVis : Option Vis) : QState × QState :=
  let s1 := match forceVis with
    | some v => { s with forceVisibility := some v }
    | none => s
  (s1, qclone s1)

/-! ## Uniqueness re-checker (`SafeDeleteModel._perform_unique_checks`)

`models.py` lines 184-220. -/

/-- A stored row as seen by the uniqueness check: pk, field valuation, and
the `deleted` timestamp.  For model classes outside the safedelete system
(no `deleted` column), `deleted` is always `none`. -/
structure URow where
  pk : Nat
  fields : List (String × Int)
  deleted : Option Nat
deriving DecidableEq, Repr

/-- Field lookup in a valuation (`None` when the field is absent/null). -/
def fieldOf (l : List (String × Int)) (f : String) : Option Int :=
  (l.find? (fun p => p.1 == f)).map Prod.snd

/-- The validating instance: `self._get_pk_val()`, its field valuation, and
`self._state.adding`. -/
structure UInst where
  pk : Option Nat
  fields : List (String × Int)
  adding : Bool
deriving DecidableEq, Repr

/-- An error key: the single field's name, or `NON_FIELD_ERRORS` for
multi-field constraints (`models.py` lines 213-216). -/
inductive UKey where
  | fieldKey (f : String)
  | nonFieldErrors
deriving DecidableEq, Repr

/-- Building `lookup_kwargs` for one unique check (`models.py` lines
191-199): skip fields whose value is `None`, and skip the primary key field
when the instance is not being added. -/
def lookupKwargs (inst : UInst) (pkField : String) (check : List String) :
    List (String × Int) :=
  check.foldl (fun acc f =>
    match fieldOf inst.fields f with
    | none => acc
    | some v =>
        if f == pkField && !inst.adding then acc else acc ++ [(f, v)]) []

/-- Row satisfies all the lookup kwargs (`qs.filter(**lookup_kwargs)`). -/
def rowMatches (r : URow) (kwargs : List (String × Int)) : Bool :=
  kwargs.all (fun p => fieldOf r.fields p.1 == some p.2)

/-- `SafeDeleteModel._perform_unique_checks`, `models.py` lines 187-220.
`participating` is `hasattr(model_class, 'all_objects')` (line 204): when
true the existence check runs on `all_objects` (all rows including
soft-deleted ones), otherwise on `_default_manager` (the default visible
rows).  When the filtered queryset is non-empty, an error is recorded under
the field key (single-field check) or `NON_FIELD_ERRORS`, with message
`unique_error_message(model_class, unique_check)` — a shape depending only
on the check, modelled by the check itself.  `uniqueCheckStep` is the body
of the `for model_class, unique_check in unique_checks` loop. -/
def uniqueCheckStep (participating : Bool) (pkField : String)
    (inst : UInst) (rows : List URow) (errors : List (UKey × List String))
    (check : List String) : List (UKey × List String) :=
  let kwargs := lookupKwargs inst pkField check
  if check.length != kwargs.length then errors
  else
    let qs0 := if participating then rows
      else rows.filter (fun r => r.deleted.isNone)
    let qs1 := qs0.filter (fun r => rowMatches r kwargs)
    let qs2 : List URow := match inst.pk with
      | some p => if !inst.adding then qs1.filter (fun r => r.pk != p) else qs1
      | none => qs1
    if qs2.isEmpty then errors
    else
      let key := match check with
        | [f] => UKey.fieldKey f
        | _ => UKey.nonFieldErrors
      errors ++ [(key, check)]

/-- `SafeDeleteModel._perform_unique_checks` proper: fold the loop body
over the declared unique checks, starting from no errors. -/
def performUniqueChecks (participating : Bool) (pkField : String)
    (inst : UInst) (uniqueChecks : List (List String)) (rows : List URow) :
    List (UKey × List String) :=
  uniqueChecks.foldl (uniqueCheckStep participating pkField inst rows) []

/-! ## Ordered world (`BaseOrderedSafeDeleteModel` / `OrderedSafeDeleteQueryset`)

`models.py` lines 240-428 and `queryset.py` lines 170-290.  A row carries
its pk, its respect-to field value (`scope`), its order field, and the
`deleted` timestamp. -/

/-- An order-participating row. -/
structure ORec where
  pk : Nat
  scope : Nat
  ord : Int
  deleted : Option Nat
deriving DecidableEq, Repr

/-- The ordered world: whether the model declares `order_with_respect_to`
(`models.py` line 270), and the stored rows. -/
structure OWorld where
  respect : Bool
  recs : List ORec
deriving DecidableEq, Repr

/-- The ordering-scope key of a row: its respect-to field value when
`order_with_respect_to` is declared, otherwise one shared key
(`filter_by_order_with_respect_to` returns the queryset unfiltered,
`queryset.py` lines 285-290). -/
def sKey (w : OWorld) (r : ORec) : Nat :=
  if w.respect then r.scope else 0

/-- Modelled from the spec: `get_ordering_queryset` (`models.py` lines
290-297) starts from `self._meta.default_manager.all()`; the default
manager is `objects` (`OrderedSafeDeleteManager`, defined in `managers.py`,
which is not provided), and per the `SafeDeleteModel` docstring
(`models.py` lines 54-55) `objects` "returns the non-deleted models" —
`DELETED_INVISIBLE` visibility.  `visibleIn w k` is that queryset filtered
by `filter_by_order_with_respect_to` for scope key `k`. -/
def visibleIn (w : OWorld) (k : Nat) : List ORec :=
  w.recs.filter (fun r => decide (r.deleted = none ∧ sKey w r = k))

/-- The order values of the ordering queryset of scope `k`. -/
def orders (w : OWorld) (k : Nat) : List Int :=
  (visibleIn w k).map ORec.ord

/-- All order values currently held in scope `k`, including rows that are
soft-deleted but still present (the measurement used by claim C2 as
stated). -/
def allOrders (w : OWorld) (k : Nat) : List Int :=
  (w.recs.filter (fun r => decide (sKey w r = k))).map ORec.ord

/-- Maximum of a list of order values (`aggregate(Max(...))`,
`queryset.py` lines 201-205); `none` on an empty queryset. -/
def listMax : List Int → Option Int
  | [] => none
  | o :: rest =>
      match listMax rest with
      | none => some o
      | some m => some (max o m)

/-- Minimum of a list of order values (`aggregate(Min(...))`,
`queryset.py` lines 207-211); `none` on an empty queryset. -/
def listMin : List Int → Option Int
  | [] => none
  | o :: rest =>
      match listMin rest with
      | none => some o
      | some m => some (min o m)

/-- `get_max_order` of the scope-`k` ordering queryset. -/
def getMaxOrder (w : OWorld) (k : Nat) : Option Int := listMax (orders w k)

/-- `get_min_order` of the scope-`k` ordering queryset. -/
def getMinOrder (w : OWorld) (k : Nat) : Option Int := listMin (orders w k)

/-- `get_next_order`, `queryset.py` lines 213-215:
`order + 1 if order is not None else 0`. -/
def getNextOrder (w : OWorld) (k : Nat) : Int :=
  match getMaxOrder w k with
  | some m => m + 1
  | none => 0

/-- `increase_order`/`decrease_order` (`queryset.py` lines 239-253) applied
to the scope-`k` ordering queryset restricted by a predicate on the order
field: a bulk `update(order = F(order) + d)`.  `update` is routed through
`_filter_visibility` (lines 138-150), so only non-deleted rows are
touched. -/
def shiftWhere (w : OWorld) (k : Nat) (q : Int → Prop) [DecidablePred q]
    (d : Int) : OWorld :=
  { w with recs := w.recs.map (fun r =>
      if r.deleted = none ∧ sKey w r = k ∧ q r.ord then
        { r with ord := r.ord + d }
      else r) }

/-- Persisting an instance whose order field is set:
`BaseOrderedSafeDeleteModel.save` (`models.py` lines 311-316) falls through
to `SafeDeleteModel.save(keep_deleted=False)` (lines 75-98), writing the
in-memory order value and clearing `deleted`. -/
def saveRow (w : OWorld) (pk : Nat) (v : Int) : OWorld :=
  { w with recs := w.recs.map (fun r =>
      if r.pk = pk then { r with ord := v, deleted := none } else r) }

/-- The `SOFT_DELETE` persistence on an ordered row (`self.deleted = now`
then `save(keep_deleted=True)`, `models.py` lines 139-148): the row keeps
its order value. -/
def markDeletedRow (w : OWorld) (pk : Nat) (now : Nat) : OWorld :=
  { w with recs := w.recs.map (fun r =>
      if r.pk = pk then { r with deleted := some now } else r) }

/-- The `HARD_DELETE` effect: the row is removed (`models.py` line 153). -/
def removeRow (w : OWorld) (pk : Nat) : OWorld :=
  { w with recs := w.recs.filter (fun r => decide (¬ r.pk = pk)) }

/-- Look an ordered row up by primary key. -/
def OWorld.find (w : OWorld) (pk : Nat) : Option ORec :=
  w.recs.find? (fun r => r.pk == pk)

/-- A Python value passed as the `order` argument of `to` — the source
checks `isinstance(order, int)` first (`models.py` lines 360-365). -/
inductive PyArg where
  | pyInt (i : Int)
  | pyNone
  | pyStr (s : String)
deriving DecidableEq, Repr

/-- Failures of the ordered operations.  `typeError` is `to()`'s
non-integer rejection; `valueError` is `_validate_ordering_reference`'s
rejection; `notFound` marks an acting pk absent from the world (no Python
counterpart — the claims' records exist); `unmodeled` marks the policy that
delegates to the cascade engine outside this world. -/
inductive OErr where
  | typeError
  | valueError
  | notFound
  | unmodeled
deriving DecidableEq, Repr

/-- `BaseOrderedSafeDeleteModel.to(order)`, `models.py` lines 356-382:
reject non-integers with `TypeError`; no-op when already at `order`;
otherwise when moving down (`self.order > order`) increment every queryset
row with `order ≤ o < self.order` (`below_instance(self).above(order,
inclusive=True).increase_order()`), when moving up decrement every queryset
row with `self.order < o ≤ order`, then set the instance's order field and
save. -/
def toOp (w : OWorld) (pk : Nat) (arg : PyArg) : Except OErr OWorld :=
  match arg with
  | PyArg.pyInt target =>
      match w.find pk with
      | none => .error OErr.notFound
      | some self =>
          if self.ord = target then .ok w
          else
            let k := sKey w self
            let w1 :=
              if self.ord > target then
                shiftWhere w k (fun o => o < self.ord ∧ target ≤ o) 1
              else
                shiftWhere w k (fun o => self.ord < o ∧ o ≤ target) (-1)
            .ok (saveRow w1 pk target)
  | _ => .error OErr.typeError

/-- `BaseOrderedSafeDeleteModel._validate_ordering_reference`, `models.py`
lines 273-288: when `order_with_respect_to` is declared, `ValueError` if
the two instances' respect-to field values differ. -/
def validateOrderingReference (w : OWorld) (self ref : ORec) :
    Except OErr Unit :=
  if w.respect = true ∧ ¬ self.scope = ref.scope then .error OErr.valueError
  else .ok ()

/-- `BaseOrderedSafeDeleteModel.swap(replacement)`, `models.py` lines
324-338: validate the reference, exchange the two order values, save
both. -/
def swapOp (w : OWorld) (aPk bPk : Nat) : Except OErr OWorld :=
  match w.find aPk, w.find bPk with
  | some a, some b =>
      match validateOrderingReference w a b with
      | .error e => .error e
      | .ok _ => .ok (saveRow (saveRow w aPk b.ord) bPk a.ord)
  | _, _ => .error OErr.notFound

/-- `BaseOrderedSafeDeleteModel.above(ref)`, `models.py` lines 384-396:
validate; no-op when orders are equal; move to `ref`'s order when moving
up the stack, else to `max(order of queryset rows below ref) or 0`, via
`to`. -/
def aboveOp (w : OWorld) (selfPk refPk : Nat) : Except OErr OWorld :=
  match w.find selfPk, w.find refPk with
  | some self, some ref =>
      match validateOrderingReference w self ref with
      | .error e => .error e
      | .ok _ =>
          if self.ord = ref.ord then .ok w
          else
            let o := if self.ord > ref.ord then ref.ord
              else (listMax ((orders w (sKey w self)).filter
                (fun x => decide (x < ref.ord)))).getD 0
            toOp w selfPk (PyArg.pyInt o)
  | _, _ => .error OErr.notFound

/-- `BaseOrderedSafeDeleteModel.below(ref)`, `models.py` lines 398-410:
validate; no-op when orders are equal; move to `min(order of queryset rows
above ref) or 0` when moving up, else to `ref`'s order, via `to`. -/
def belowOp (w : OWorld) (selfPk refPk : Nat) : Except OErr OWorld :=
  match w.find selfPk, w.find refPk with
  | some self, some ref =>
      match validateOrderingReference w self ref with
      | .error e => .error e
      | .ok _ =>
          if self.ord = ref.ord then .ok w
          else
            let o := if self.ord > ref.ord then
                (listMin ((orders w (sKey w self)).filter
                  (fun x => decide (x > ref.ord)))).getD 0
              else ref.ord
            toOp w selfPk (PyArg.pyInt o)
  | _, _ => .error OErr.notFound

/-- `BaseOrderedSafeDeleteModel.top()`, `models.py` lines 412-417:
`to(get_min_order())` — when the queryset is empty the aggregate is `None`
and `to` rejects it with `TypeError`. -/
def topOp (w : OWorld) (selfPk : Nat) : Except OErr OWorld :=
  match w.find selfPk with
  | none => .error OErr.notFound
  | some self =>
      match getMinOrder w (sKey w self) with
      | some m => toOp w selfPk (PyArg.pyInt m)
      | none => toOp w selfPk PyArg.pyNone

/-- `BaseOrderedSafeDeleteModel.bottom()`, `models.py` lines 419-424:
`to(get_max_order())`. -/
def bottomOp (w : OWorld) (selfPk : Nat) : Except OErr OWorld :=
  match w.find selfPk with
  | none => .error OErr.notFound
  | some self =>
      match getMaxOrder w (sKey w self) with
      | some m => toOp w selfPk (PyArg.pyInt m)
      | none => toOp w selfPk PyArg.pyNone

/-- `BaseOrderedSafeDeleteModel.delete`, `models.py` lines 318-322,
followed by `SafeDeleteModel.delete`'s policy dispatch (lines 125-162):
first `above_instance(self).decrease_order()` on the ordering queryset,
then the policy acts on the record itself.  `canHard` stands for
`can_hard_delete(self)` (`utils.py`, not provided).  `SOFT_DELETE_CASCADE`
additionally soft-deletes related records through the relationship graph,
which lives outside this world (see `deleteCascade`); it is reported
`unmodeled` here. -/
def deleteOp (w : OWorld) (pk : Nat) (pol : Pol) (now : Nat)
    (canHard : Bool) : Except OErr OWorld :=
  match w.find pk with
  | none => .error OErr.notFound
  | some self =>
      let k := sKey w self
      let w1 := shiftWhere w k (fun o => self.ord < o) (-1)
      match pol with
      | Pol.noDelete => .ok w1
      | Pol.softDelete => .ok (markDeletedRow w1 pk now)
      | Pol.hardDelete => .ok (removeRow w1 pk)
      | Pol.hardDeleteNocascade =>
          if canHard then .ok (removeRow w1 pk)
          else .ok (markDeletedRow w1 pk now)
      | Pol.softDeleteCascade => .error OErr.unmodeled

/-- `BaseOrderedSafeDeleteModel.save` on a new instance (`models.py` lines
311-316): when the order field is `None`, assign the ordering queryset's
`get_next_order()`; persist appends the row (with `deleted` cleared by
`SafeDeleteModel.save`). -/
def saveNew (w : OWorld) (pk scope : Nat) (ordArg : Option Int) : OWorld :=
  let k := if w.respect then scope else 0
  let o := ordArg.getD (getNextOrder w k)
  { w with recs := w.recs ++ [⟨pk, scope, o, none⟩] }

/-- Association-list lookup for `bulk_create`'s
`order_with_respect_to_mapping`. -/
def mlook : List (Nat × Int) → Nat → Option Int
  | [], _ => none
  | p :: rest, k => if p.1 = k then some p.2 else mlook rest k

/-- The scoped branch of `bulk_create` (`queryset.py` lines 259-272): for
each incoming object, if its scope key is already in the mapping increment
the mapped value, else initialise it with that scope's
`get_next_order()` (queried against the pre-insert table); assign the
mapped value as the object's order. -/
def assignScoped (w : OWorld) : List (Nat × Int) → List (Nat × Nat) → List ORec
  | _, [] => []
  | m, obj :: rest =>
      match mlook m obj.2 with
      | some v => ⟨obj.1, obj.2, v + 1, none⟩ :: assignScoped w ((obj.2, v + 1) :: m) rest
      | none =>
          let v := getNextOrder w obj.2
          ⟨obj.1, obj.2, v, none⟩ :: assignScoped w ((obj.2, v) :: m) rest

/-- The unscoped branch of `bulk_create` (`queryset.py` lines 273-275):
`enumerate(objs, self.get_next_order())`. -/
def assignSeq : Int → List (Nat × Nat) → List ORec
  | _, [] => []
  | n, obj :: rest => ⟨obj.1, obj.2, n, none⟩ :: assignSeq (n + 1) rest

/-- `OrderedSafeDeleteQueryset.bulk_create(objs)` (`queryset.py` lines
255-276) on the default manager's queryset: assign order values (per
respect-to scope when declared, else one table-wide sequence starting at
`get_next_order()`), then insert all rows.  Each incoming object is a
(pk, scope) pair; fresh instances have `deleted = None`. -/
def bulkCreateOp (w : OWorld) (objs : List (Nat × Nat)) : OWorld :=
  let newRecs := if w.respect then assignScoped w [] objs
    else assignSeq (getNextOrder w 0) objs
  { w with recs := w.recs ++ newRecs }

/-- The single completed operations quantified over by claim C2. -/
inductive OOp where
  | opSaveNew (pk scope : Nat)
  | opTo (pk : Nat) (arg : PyArg)
  | opSwap (a b : Nat)
  | opAbove (a b : Nat)
  | opBelow (a b : Nat)
  | opTop (pk : Nat)
  | opBottom (pk : Nat)
  | opDelete (pk : Nat) (pol : Pol) (now : Nat)
  | opBulkCreate (objs : List (Nat × Nat))
deriving DecidableEq, Repr

/-- Dispatch of a single completed operation.  `opSaveNew` is a save with
auto-assigned order (`order` field `None`); `opDelete`'s `can_hard_delete`
oracle is irrelevant for the policies claim C2 ranges over. -/
def applyOp (w : OWorld) : OOp → Except OErr OWorld
  | OOp.opSaveNew pk scope => .ok (saveNew w pk scope none)
  | OOp.opTo pk arg => toOp w pk arg
  | OOp.opSwap a b => swapOp w a b
  | OOp.opAbove a b => aboveOp w a b
  | OOp.opBelow a b => belowOp w a b
  | OOp.opTop pk => topOp w pk
  | OOp.opBottom pk => bottomOp w pk
  | OOp.opDelete pk pol now => deleteOp w pk pol now false
  | OOp.opBulkCreate objs => .ok (bulkCreateOp w objs)

/-- The per-scope no-duplicate invariant over the non-deleted rows. -/
def InvOrders (w : OWorld) : Prop := ∀ k, (orders w k).Nodup

/-- Primary keys are unique in the table. -/
def PkNodup (w : OWorld) : Prop := (w.recs.map ORec.pk).Nodup

/-- Well-formedness of an operation: acting records exist and are not
soft-deleted; a delete runs under a record-hiding policy. -/
def WFOp (w : OWorld) : OOp → Prop
  | OOp.opSaveNew _ _ => True
  | OOp.opTo pk _ => ∃ r, w.find pk = some r ∧ r.deleted = none
  | OOp.opSwap a b =>
      (∃ ra, w.find a = some ra ∧ ra.deleted = none)
        ∧ (∃ rb, w.find b = some rb ∧ rb.deleted = none)
  | OOp.opAbove a _ => ∃ r, w.find a = some r ∧ r.deleted = none
  | OOp.opBelow a _ => ∃ r, w.find a = some r ∧ r.deleted = none
  | OOp.opTop pk => ∃ r, w.find pk = some r ∧ r.deleted = none
  | OOp.opBottom pk => ∃ r, w.find pk = some r ∧ r.deleted = none
  | OOp.opDelete pk pol _ =>
      (∃ r, w.find pk = some r ∧ r.deleted = none)
        ∧ (pol = Pol.softDelete ∨ pol = Pol.hardDelete)
  | OOp.opBulkCreate _ => True

/-! ## Theorems -/

/-- C1, counterexample: on a persisted `SOFT_DELETE` instance, the effect
trace of `delete` is not the claimed order (pre-soft-delete notification
first, then the `deleted` field assignment): the source assigns
`self.deleted = timezone.now()` (line 142) before sending `pre_softdelete`
(line 145). -/
theorem C1_counterexample :
    (delete ⟨some 1, none, Pol.softDelete⟩ none 5).map Prod.snd ≠
      some [Ev.sigPreSoftdelete, Ev.fieldDeletedSet (some 5),
            Ev.persistRow, Ev.sigPostSoftdelete] := by decide

/-- C1 (amended): when the effective policy is `SOFT_DELETE`, `delete`
first sets the `deleted` field to the current time, then emits the
pre-soft-delete notification, then persists the record with
undelete-on-save suppressed (`save(keep_deleted=True)`, hence no
`fieldDeletedSet none` and no `post_undelete` in the trace), then emits the
post-soft-delete notification — in exactly this order. -/
theorem C1_soft_delete_order (i : Inst) (forcePolicy : Option Pol) (now : Nat)
    (h : effectivePolicy i forcePolicy = Pol.softDelete) :
    delete i forcePolicy now =
      some ({ i with deleted := some now },
        [Ev.fieldDeletedSet (some now), Ev.sigPreSoftdelete,
         Ev.persistRow, Ev.sigPostSoftdelete]) := by
  unfold delete
  rw [h]
  rfl

/-- Witness for `C1_soft_delete_order` at a concrete instance. -/
theorem C1_soft_delete_order_witness :
    delete ⟨some 1, none, Pol.softDelete⟩ none 5 =
      some (⟨some 1, some 5, Pol.softDelete⟩,
        [Ev.fieldDeletedSet (some 5), Ev.sigPreSoftdelete,
         Ev.persistRow, Ev.sigPostSoftdelete]) :=
  C1_soft_delete_order ⟨some 1, none, Pol.softDelete⟩ none 5 (by decide)

/-- C5, counterexample: an instance that is currently marked deleted but
has no primary key (never persisted, `self.pk` falsy): saving it without
keep-deleted clears the field but fires no post-undelete notification
(`was_undeleted` requires `self.deleted and self.pk`, line 94), contrary to
the claim. -/
theorem C5_counterexample :
    (⟨none, some 3, Pol.softDelete⟩ : Inst).deleted.isSome = true ∧
    Ev.sigPostUndelete ∉ (save ⟨none, some 3, Pol.softDelete⟩ false).2 ∧
    (save ⟨none, some 3, Pol.softDelete⟩ false).1.deleted = none := by decide

/-- C5 (amended): for a record currently marked deleted, saving without
keep-deleted clears `deleted` and fires post-undelete exactly when the
record's primary key is truthy (it has been persisted); saving with
keep-deleted leaves `deleted` unchanged and fires no post-undelete. -/
theorem C5_save_undelete (i : Inst) (t : Nat) (h : i.deleted = some t) :
    ((save i false).1.deleted = none ∧
      (Ev.sigPostUndelete ∈ (save i false).2 ↔ pkTruthy i = true)) ∧
    ((save i true).1.deleted = some t ∧
      Ev.sigPostUndelete ∉ (save i true).2) := by
  by_cases hp : pkTruthy i = true <;>
    simp [save, h, hp]

/-- Witness for `C5_save_undelete` at a concrete persisted instance. -/
theorem C5_save_undelete_witness :
    ((save ⟨some 1, some 3, Pol.softDelete⟩ false).1.deleted = none ∧
      (Ev.sigPostUndelete ∈ (save ⟨some 1, some 3, Pol.softDelete⟩ false).2 ↔
        pkTruthy ⟨some 1, some 3, Pol.softDelete⟩ = true)) ∧
    ((save ⟨some 1, some 3, Pol.softDelete⟩ true).1.deleted = some 3 ∧
      Ev.sigPostUndelete ∉ (save ⟨some 1, some 3, Pol.softDelete⟩ true).2) :=
  C5_save_undelete ⟨some 1, some 3, Pol.softDelete⟩ 3 rfl

/-- C3: every rejected operation leaves all state unchanged — `undelete`
on a record not marked deleted fails the `assert self.deleted`
precondition before its `save` (the error carries no successor world, the
input world is untouched); `to` with a non-integer order raises
`TypeError` at function entry before any queryset update; `swap`, `above`
and `below` with a reference whose respect-to field values differ raise
`ValueError` inside `_validate_ordering_reference`, which each of them
calls first. -/
theorem C3_rejections_mutate_nothing :
    (∀ fuel w pk r forcePolicy, CWorld.find w pk = some r → r.deleted = none →
      undeleteF (fuel + 1) w pk forcePolicy = .error CErr.assertFail) ∧
    (∀ w pk str, toOp w pk (PyArg.pyStr str) = .error OErr.typeError ∧
      toOp w pk PyArg.pyNone = .error OErr.typeError) ∧
    (∀ w a b ra rb, w.respect = true → OWorld.find w a = some ra →
      OWorld.find w b = some rb → ra.scope ≠ rb.scope →
      swapOp w a b = .error OErr.valueError ∧
      aboveOp w a b = .error OErr.valueError ∧
      belowOp w a b = .error OErr.valueError) := by
  refine ⟨?_, ?_, ?_⟩
  · intro fuel w pk r forcePolicy hfind hdel
    simp [undeleteF, hfind, hdel]
  · intro w pk str
    exact ⟨rfl, rfl⟩
  · intro w a b ra rb hresp hfa hfb hscope
    have hval : validateOrderingReference w ra rb = .error OErr.valueError := by
      simp [validateOrderingReference, hresp, hscope]
    refine ⟨?_, ?_, ?_⟩ <;> simp [swapOp, aboveOp, belowOp, hfa, hfb, hval]

/-- Witness for `C3_rejections_mutate_nothing` at concrete inputs. -/
theorem C3_rejections_witness :
    undeleteF 1 ⟨[⟨1, none, Pol.softDelete⟩], []⟩ 1 none = .error CErr.assertFail ∧
    toOp ⟨false, [⟨1, 0, 0, none⟩]⟩ 1 (PyArg.pyStr "x") = .error OErr.typeError ∧
    swapOp ⟨true, [⟨1, 0, 0, none⟩, ⟨2, 1, 0, none⟩]⟩ 1 2 = .error OErr.valueError := by
  refine ⟨?_, ?_, ?_⟩
  · exact C3_rejections_mutate_nothing.1 0 ⟨[⟨1, none, Pol.softDelete⟩], []⟩ 1
      ⟨1, none, Pol.softDelete⟩ none (by decide) rfl
  · exact (C3_rejections_mutate_nothing.2.1 ⟨false, [⟨1, 0, 0, none⟩]⟩ 1 "x").1
  · exact (C3_rejections_mutate_nothing.2.2 ⟨true, [⟨1, 0, 0, none⟩, ⟨2, 1, 0, none⟩]⟩
      1 2 ⟨1, 0, 0, none⟩ ⟨2, 1, 0, none⟩ rfl (by decide) (by decide) (by decide)).1

/-- Helper: `_filter_visibility` with the latch already set is a no-op
(`queryset.py` line 110). -/
theorem fv_latch (s : QState) (h : s.filterApplied = true) :
    filterVisibility s = .ok s := by
  simp [filterVisibility, h]

/-- Helper: `_filter_visibility` under effective `DELETED_VISIBLE` is a
no-op (the mode is not among the three filtering modes of line 111). -/
theorem fv_visible (s : QState)
    (h : s.forceVisibility.getD s.visibility = Vis.deletedVisible) :
    filterVisibility s = .ok s := by
  simp [filterVisibility, h]

/-- Helper: a successful `_filter_visibility` either changed nothing or
set the latch. -/
theorem fv_result_latch (s s' : QState)
    (h : filterVisibility s = Except.ok s') :
    s' = s ∨ s'.filterApplied = true := by
  simp only [filterVisibility] at h
  split at h
  · split at h
    · simp at h
    · cases h
      right
      rfl
  · cases h
    left
    rfl

/-- Helper: `_filter_visibility` is idempotent on success. -/
theorem fv_idem (s s' : QState) (h : filterVisibility s = Except.ok s') :
    filterVisibility s' = Except.ok s' := by
  rcases fv_result_latch s s' h with rfl | hl
  · exact h
  · exact fv_latch s' hl

/-- Helper: `_filter_visibility` only touches the conditions and the
latch. -/
theorem fv_preserves (s s' : QState)
    (h : filterVisibility s = Except.ok s') :
    s'.visibility = s.visibility ∧ s'.visibilityField = s.visibilityField ∧
      s'.forceVisibility = s.forceVisibility := by
  simp only [filterVisibility] at h
  split at h
  · split at h
    · simp at h
    · cases h
      exact ⟨rfl, rfl, rfl⟩
  · cases h
    exact ⟨rfl, rfl, rfl⟩

/-- Helper: a successful `_filter_visibility` leaves the latch equal to
the disjunction of the incoming latch and the effective mode being one of
the three filtering modes of `queryset.py` line 111. -/
theorem fv_latch_eq (s s' : QState)
    (h : filterVisibility s = Except.ok s') :
    s'.filterApplied = (s.filterApplied
      || (s.forceVisibility.getD s.visibility == Vis.deletedInvisible
        || s.forceVisibility.getD s.visibility == Vis.deletedVisibleByField
        || s.forceVisibility.getD s.visibility == Vis.deletedOnlyVisible)) := by
  simp only [filterVisibility] at h
  split at h
  · rename_i hcond
    split at h
    · simp at h
    · cases h
      rw [Bool.and_eq_true] at hcond
      have h1 : s.filterApplied = false := by
        have h2 := hcond.1
        simp at h2
        exact h2
      simp [h1, hcond.2]
  · rename_i hcond
    cases h
    cases hl : s.filterApplied
    · have hchain : (s.forceVisibility.getD s.visibility == Vis.deletedInvisible
          || s.forceVisibility.getD s.visibility == Vis.deletedVisibleByField
          || s.forceVisibility.getD s.visibility == Vis.deletedOnlyVisible)
            = false := by
        cases hc : (s.forceVisibility.getD s.visibility == Vis.deletedInvisible
            || s.forceVisibility.getD s.visibility == Vis.deletedVisibleByField
            || s.forceVisibility.getD s.visibility == Vis.deletedOnlyVisible)
        · rfl
        · exact absurd (by rw [Bool.and_eq_true]; exact ⟨by simp [hl], hc⟩)
            hcond
      simp [hl, hchain]
    · simp [hl]

/-- C6, counterexample: with effective mode `DELETED_VISIBLE`, an unset
latch and a slice already taken, `_filter_visibility` neither fails the
assertion nor sets the latch — it returns the state unchanged, contrary to
the claim's "sets the latch, and fails with an assertion if a
row-limit/offset has already been applied". -/
theorem C6_counterexample :
    filterVisibility ⟨Vis.deletedVisible, "f", none, false, true, []⟩ =
      .ok ⟨Vis.deletedVisible, "f", none, false, true, []⟩ ∧
    (⟨Vis.deletedVisible, "f", none, false, true, []⟩ : QState).filterApplied
      = false := ⟨rfl, rfl⟩

/-- C6 (amended): `_filter_visibility` is idempotent; when the latch is
already set it does nothing; under effective mode `INVISIBLE` or
`VISIBLE_BY_FIELD` it fails the assertion if a row-limit/offset was applied
and otherwise injects `deleted IS NULL` and sets the latch; under
`ONLY_VISIBLE` likewise with `deleted IS NOT NULL`; under `VISIBLE` it
injects nothing and leaves both the latch and the assertion alone. -/
theorem C6_filter_visibility (s : QState) :
    (s.filterApplied = true → filterVisibility s = .ok s) ∧
    (s.forceVisibility.getD s.visibility = Vis.deletedVisible →
      filterVisibility s = .ok s) ∧
    (s.filterApplied = false →
      s.forceVisibility.getD s.visibility ≠ Vis.deletedVisible →
      s.sliced = true → filterVisibility s = .error ()) ∧
    (s.filterApplied = false → s.sliced = false →
      (s.forceVisibility.getD s.visibility = Vis.deletedInvisible ∨
          s.forceVisibility.getD s.visibility = Vis.deletedVisibleByField →
        filterVisibility s = .ok { s with
          conds := s.conds ++ [QCond.deletedIsnull true],
          filterApplied := true }) ∧
      (s.forceVisibility.getD s.visibility = Vis.deletedOnlyVisible →
        filterVisibility s = .ok { s with
          conds := s.conds ++ [QCond.deletedIsnull false],
          filterApplied := true })) ∧
    (∀ s', filterVisibility s = .ok s' → filterVisibility s' = .ok s') := by
  refine ⟨fv_latch s, fv_visible s, ?_, ?_, fun s' h => fv_idem s s' h⟩
  · intro ha heff hs
    cases hv : s.forceVisibility.getD s.visibility <;>
      simp_all [filterVisibility]
  · intro ha hs
    constructor
    · intro hor
      rcases hor with hv | hv <;> simp [filterVisibility, hv, ha, hs]
    · intro hv
      simp [filterVisibility, hv, ha, hs]

/-- Witness for `C6_filter_visibility` at a concrete query state. -/
theorem C6_filter_visibility_witness :
    filterVisibility ⟨Vis.deletedInvisible, "f", none, false, false, []⟩ =
      .ok ⟨Vis.deletedInvisible, "f", none, true, false,
        [QCond.deletedIsnull true]⟩ :=
  ((C6_filter_visibility
      ⟨Vis.deletedInvisible, "f", none, false, false, []⟩).2.2.2.1
    rfl rfl).1 (Or.inl rfl)

/-- Helper: `_check_field_filter` only touches the force-visibility
override. -/
theorem cff_preserves (s : QState) (kwargs : List String) :
    (checkFieldFilter s kwargs).visibility = s.visibility ∧
    (checkFieldFilter s kwargs).visibilityField = s.visibilityField ∧
    (checkFieldFilter s kwargs).filterApplied = s.filterApplied := by
  unfold checkFieldFilter
  split
  · exact ⟨rfl, rfl, rfl⟩
  · exact ⟨rfl, rfl, rfl⟩

/-- C7, counterexample: `all(force_visibility=...)` stores the forced
visibility on the caller's queryset itself (`queryset.py` lines 70-71)
before cloning — the caller is mutated beyond the latched filter
application, contrary to the claim. -/
theorem C7_counterexample :
    (qall ⟨Vis.deletedInvisible, "f", none, false, false, []⟩
        (some Vis.deletedVisible)).1 ≠
      ⟨Vis.deletedInvisible, "f", none, false, false, []⟩ := by decide

/-- C7 (amended): `filter`, `_clone` and `all` without a forced visibility
never mutate the caller's query object, and their returned copies carry
the visibility mode, visibility field name, applied-latch and
force-visibility override (`filter` first updating the copy's override per
the visible-by-field rule).  `get` never mutates the caller either and its
copy carries the visibility mode, the field name and the
(visible-by-field-updated, otherwise carried) override, but `get` applies
the visibility filter to the copy before returning it (`queryset.py` line
97), so the copy's applied-latch is set exactly when the caller's latch
was already set or the copy's effective visibility is one of the three
filtering modes.  `all` with a forced visibility, however, first stores
the override on the caller itself, and its result is a clone of that
mutated caller. -/
theorem C7_copies_carry_state (s : QState) (kwargs : List String)
    (fv : Option Vis) :
    (qclone s = s ∧
      (qfilter s kwargs).1 = s ∧
      (qget s kwargs).1 = s ∧
      (qall s none).1 = s) ∧
    ((qall s fv).1 = (match fv with
        | none => s
        | some v => { s with forceVisibility := some v }) ∧
      (qall s fv).2 = qclone (qall s fv).1) ∧
    ((qfilter s kwargs).2.visibility = s.visibility ∧
      (qfilter s kwargs).2.visibilityField = s.visibilityField ∧
      (qfilter s kwargs).2.filterApplied = s.filterApplied ∧
      (s.visibility = Vis.deletedVisibleByField ∧
          s.visibilityField ∈ kwargs →
        (qfilter s kwargs).2.forceVisibility = some Vis.deletedVisible) ∧
      (¬(s.visibility = Vis.deletedVisibleByField ∧
          s.visibilityField ∈ kwargs) →
        (qfilter s kwargs).2.forceVisibility = s.forceVisibility)) ∧
    (∀ r, (qget s kwargs).2 = .ok r →
      r.visibility = s.visibility ∧
      r.visibilityField = s.visibilityField ∧
      (s.visibility = Vis.deletedVisibleByField ∧
          s.visibilityField ∈ kwargs →
        r.forceVisibility = some Vis.deletedVisible) ∧
      (¬(s.visibility = Vis.deletedVisibleByField ∧
          s.visibilityField ∈ kwargs) →
        r.forceVisibility = s.forceVisibility) ∧
      r.filterApplied = (s.filterApplied
        || (r.forceVisibility.getD r.visibility == Vis.deletedInvisible
          || r.forceVisibility.getD r.visibility == Vis.deletedVisibleByField
          || r.forceVisibility.getD r.visibility
              == Vis.deletedOnlyVisible))) := by
  have hcv := cff_preserves (qclone s) kwargs
  refine ⟨⟨rfl, rfl, ?_, rfl⟩, ⟨?_, ?_⟩, ⟨?_, ?_, ?_, ?_, ?_⟩, ?_⟩
  · unfold qget
    cases h : filterVisibility (checkFieldFilter (qclone s) kwargs) <;>
      simp [h]
  · cases fv <;> rfl
  · cases fv <;> rfl
  · exact hcv.1
  · exact hcv.2.1
  · exact hcv.2.2
  · intro h
    simp [qfilter, checkFieldFilter, qclone, h.1, h.2]
  · intro h
    simp [qfilter, checkFieldFilter, qclone, h]
  · intro r h
    unfold qget at h
    cases hfv : filterVisibility (checkFieldFilter (qclone s) kwargs) with
    | error e => simp [hfv] at h
    | ok c' =>
        simp only [hfv] at h
        have hp := fv_preserves (checkFieldFilter (qclone s) kwargs) c' hfv
        have hlatch := fv_latch_eq (checkFieldFilter (qclone s) kwargs) c' hfv
        cases h
        refine ⟨hp.1.trans hcv.1, hp.2.1.trans hcv.2.1, ?_, ?_, ?_⟩
        · intro hcond
          show c'.forceVisibility = some Vis.deletedVisible
          rw [hp.2.2]
          simp [checkFieldFilter, qclone, hcond.1, hcond.2]
        · intro hcond
          show c'.forceVisibility = s.forceVisibility
          rw [hp.2.2]
          simp [checkFieldFilter, qclone, hcond]
        · show c'.filterApplied = (s.filterApplied
            || (c'.forceVisibility.getD c'.visibility == Vis.deletedInvisible
              || c'.forceVisibility.getD c'.visibility
                  == Vis.deletedVisibleByField
              || c'.forceVisibility.getD c'.visibility
                  == Vis.deletedOnlyVisible))
          rw [hlatch, hp.1, hp.2.2, hcv.2.2]
          exact rfl

/-- Witness for `C7_copies_carry_state` at concrete query states: a
visible-by-field `filter` leaves the caller untouched and forces the
copy's visibility; a default-visibility `get` returns its copy with the
applied-latch set. -/
theorem C7_copies_carry_state_witness :
    (qfilter ⟨Vis.deletedVisibleByField, "f", none, false, false, []⟩
        ["f"]).1 = ⟨Vis.deletedVisibleByField, "f", none, false, false, []⟩ ∧
    (qfilter ⟨Vis.deletedVisibleByField, "f", none, false, false, []⟩
        ["f"]).2.forceVisibility = some Vis.deletedVisible ∧
    QState.filterApplied ⟨Vis.deletedInvisible, "f", none, true, false,
        [QCond.deletedIsnull true, QCond.userFilter ["g"]]⟩ = true :=
  by
  refine ⟨?_, ?_, ?_⟩
  · exact (C7_copies_carry_state
      ⟨Vis.deletedVisibleByField, "f", none, false, false, []⟩
      ["f"] none).1.2.1
  · exact (C7_copies_carry_state
      ⟨Vis.deletedVisibleByField, "f", none, false, false, []⟩
      ["f"] none).2.2.1.2.2.2.1 ⟨rfl, by decide⟩
  · obtain ⟨-, -, -, hD⟩ := C7_copies_carry_state
      ⟨Vis.deletedInvisible, "f", none, false, false, []⟩ ["g"] none
    exact (hD ⟨Vis.deletedInvisible, "f", none, true, false,
      [QCond.deletedIsnull true, QCond.userFilter ["g"]]⟩ rfl).2.2.2.2

/-- Helper: filtering after a map is mapping after filtering the composed
predicate. -/
theorem filter_map_comm {α β : Type} (f : α → β) (p : β → Bool) (l : List α) :
    (l.map f).filter p = (l.filter (fun a => p (f a))).map f := by
  induction l with
  | nil => rfl
  | cons a l ih => by_cases h : p (f a) <;> simp [h, ih]

/-- Helper: mapping preserves emptiness. -/
theorem isEmpty_map {α β : Type} (f : α → β) (l : List α) :
    (l.map f).isEmpty = l.isEmpty := by
  cases l <;> rfl

/-- Helper: filtering twice with the same predicate filters once. -/
theorem filter_idem {α : Type} (p : α → Bool) (l : List α) :
    (l.filter p).filter p = l.filter p := by
  induction l with
  | nil => rfl
  | cons a l ih => by_cases h : p a <;> simp [h, ih]

/-- Helper: pointwise-equal step functions fold equally. -/
theorem foldl_congr_fn {α β : Type} (f g : β → α → β)
    (h : ∀ b a, f b a = g b a) :
    ∀ (l : List α) (init : β), l.foldl f init = l.foldl g init := by
  intro l
  induction l with
  | nil => intro init; rfl
  | cons a l ih => intro init; rw [List.foldl_cons, List.foldl_cons, h, ih]

/-- Helper: `rowMatches` only reads the field valuation, never the
`deleted` mark. -/
theorem rowMatches_deleted (r : URow) (d : Option Nat)
    (kwargs : List (String × Int)) :
    rowMatches { r with deleted := d } kwargs = rowMatches r kwargs := rfl

/-- Helper: for a participating model class the uniqueness loop body is
insensitive to the rows' `deleted` marks (the existence check runs on
`all_objects`). -/
theorem uniqueCheckStep_deleted_blind (pkField : String) (inst : UInst)
    (rows : List URow) (g : URow → Option Nat)
    (errors : List (UKey × List String)) (check : List String) :
    uniqueCheckStep true pkField inst
        (rows.map (fun r => { r with deleted := g r })) errors check =
      uniqueCheckStep true pkField inst rows errors check := by
  unfold uniqueCheckStep
  cases hl : (check.length != (lookupKwargs inst pkField check).length)
  · cases hpk : inst.pk <;> cases ha : inst.adding <;>
      simp [hl, hpk, ha, filter_map_comm, rowMatches_deleted, isEmpty_map]
  · simp [hl]

/-- Helper: for a non-participating model class the loop body only sees
the default-visible rows. -/
theorem uniqueCheckStep_fallback_visible (pkField : String) (inst : UInst)
    (rows : List URow) (errors : List (UKey × List String))
    (check : List String) :
    uniqueCheckStep false pkField inst rows errors check =
      uniqueCheckStep false pkField inst
        (rows.filter (fun r => r.deleted.isNone)) errors check := by
  unfold uniqueCheckStep
  simp [filter_idem, List.filter_filter, Bool.and_self]

/-- C8: for participating record types the pre-write uniqueness check
scans all rows including soft-deleted ones — its result is invariant under
arbitrary changes to the rows' `deleted` marks — so creating a record whose
unique field equals a soft-deleted row's fails validation with the same
error shape as an active-row conflict (concrete scenario in the last
conjunct); for non-participating record types it falls back to the default
visible-only check, whose result only depends on the non-deleted rows. -/
theorem C8_unique_checks_scan_all_rows (pkField : String) (inst : UInst)
    (uniqueChecks : List (List String)) (rows : List URow)
    (g : URow → Option Nat) :
    (performUniqueChecks true pkField inst uniqueChecks
        (rows.map (fun r => { r with deleted := g r })) =
      performUniqueChecks true pkField inst uniqueChecks rows) ∧
    (performUniqueChecks false pkField inst uniqueChecks rows =
      performUniqueChecks false pkField inst uniqueChecks
        (rows.filter (fun r => r.deleted.isNone))) ∧
    (performUniqueChecks true "id" ⟨none, [("f", 42)], true⟩ [["f"]]
        [⟨1, [("f", 42)], some 7⟩] = [(UKey.fieldKey "f", ["f"])] ∧
      performUniqueChecks true "id" ⟨none, [("f", 42)], true⟩ [["f"]]
        [⟨1, [("f", 42)], none⟩] = [(UKey.fieldKey "f", ["f"])] ∧
      performUniqueChecks true "id" ⟨none, [("f", 42)], true⟩ [["f"]]
        [⟨1, [("f", 42)], some 7⟩] ≠ []) := by
  refine ⟨?_, ?_, by decide, by decide, by decide⟩
  · unfold performUniqueChecks
    exact foldl_congr_fn _ _
      (fun e c => uniqueCheckStep_deleted_blind pkField inst rows g e c)
      uniqueChecks []
  · unfold performUniqueChecks
    exact foldl_congr_fn _ _
      (fun e c => uniqueCheckStep_fallback_visible pkField inst rows e c)
      uniqueChecks []

/-- Helper: `find?` is the head of `filter`. -/
theorem find?_eq_head?_filter {α : Type} (p : α → Bool) (l : List α) :
    l.find? p = (l.filter p).head? := by
  induction l with
  | nil => rfl
  | cons a l ih =>
      by_cases h : p a = true
      · rw [List.find?_cons_of_pos _ h, List.filter_cons_of_pos h]
        rfl
      · rw [List.find?_cons_of_neg _ (by simpa using h),
          List.filter_cons_of_neg (by simpa using h), ih]

/-- Helper: rows with a different pk are untouched by `setDeletedField`. -/
theorem filter_q_setDeleted_other (w : CWorld) (p q : Nat)
    (v : Option Nat) (hpq : p ≠ q) :
    (setDeletedField w p v).recs.filter (fun r => r.pk == q) =
      w.recs.filter (fun r => r.pk == q) := by
  obtain ⟨recs, rel⟩ := w
  simp only [setDeletedField]
  induction recs with
  | nil => rfl
  | cons r rs ih =>
      by_cases h : r.pk = p
      · have hq : ¬ r.pk = q := by rw [h]; exact hpq
        simp [List.filter_cons, h, hq, hpq, ih]
      · by_cases h2 : r.pk = q
        · have hqp : ¬ q = p := fun he => hpq he.symm
          simp [List.filter_cons, h, h2, hqp, ih]
        · simp [List.filter_cons, h, h2, ih]

/-- Helper: equal pk-filtered row lists give equal `find` results. -/
theorem find_eq_of_filter_q_eq (w1 w2 : CWorld) (q : Nat)
    (h : w1.recs.filter (fun r => r.pk == q) =
      w2.recs.filter (fun r => r.pk == q)) :
    CWorld.find w1 q = CWorld.find w2 q := by
  unfold CWorld.find
  rw [find?_eq_head?_filter, find?_eq_head?_filter, h]

/-- Helper: absence of deleted `q`-rows transfers along pk-filter
equality. -/
theorem notdel_of_filter_q_eq (w1 w0 : CWorld) (q : Nat)
    (h : w1.recs.filter (fun r => r.pk == q) =
      w0.recs.filter (fun r => r.pk == q))
    (h0 : ∀ r ∈ w0.recs, r.pk = q → r.deleted = none) :
    ∀ r ∈ w1.recs, r.pk = q → r.deleted = none := by
  intro r hr hpk
  have hm : r ∈ w1.recs.filter (fun r => r.pk == q) := by
    rw [List.mem_filter]
    exact ⟨hr, by simp [hpk]⟩
  rw [h] at hm
  exact h0 r (List.mem_filter.mp hm).1 hpk

/-- Helper: clearing a `deleted` field never increases the deleted
count. -/
theorem deletedCount_clear_le (w : CWorld) (pk : Nat) :
    deletedCount (setDeletedField w pk none) ≤ deletedCount w := by
  obtain ⟨recs, rel⟩ := w
  simp only [setDeletedField, deletedCount]
  induction recs with
  | nil => simp
  | cons r rs ih =>
      by_cases h : r.pk = pk <;>
        by_cases h2 : r.deleted.isSome = true <;>
          simp [List.filter_cons, h, h2] <;> omega

/-- Helper: clearing the `deleted` field of a row that is currently
deleted strictly decreases the deleted count. -/
theorem deletedCount_clear_lt (w : CWorld) (pk : Nat) (r : CRec)
    (hf : CWorld.find w pk = some r) (hd : r.deleted.isSome = true) :
    deletedCount (setDeletedField w pk none) < deletedCount w := by
  obtain ⟨recs, rel⟩ := w
  simp only [CWorld.find, setDeletedField, deletedCount] at *
  induction recs with
  | nil => simp at hf
  | cons r0 rs ih =>
      by_cases h : r0.pk = pk
      · rw [List.find?_cons_of_pos _ (by simpa using h)] at hf
        have hr0 : r0 = r := by cases hf; rfl
        subst hr0
        have htail : (List.filter (fun r => r.deleted.isSome)
            (rs.map (fun r => if r.pk = pk then { r with deleted := none }
              else r))).length ≤
            (List.filter (fun r => r.deleted.isSome) rs).length := by
          have := deletedCount_clear_le ⟨rs, rel⟩ pk
          simpa [setDeletedField, deletedCount] using this
        simp [List.filter_cons, h, hd]
        omega
      · rw [List.find?_cons_of_neg _ (by simpa using h)] at hf
        have := ih hf
        by_cases h2 : r0.deleted.isSome = true <;>
          simp [List.filter_cons, h, h2] <;> omega

/-- Helper: the pk-filtered rows of a fixed record survive the
`SOFT_DELETE_CASCADE` related-objects loop when that record is already
deleted (the `not related.deleted` guard skips it; other records have a
different pk). -/
theorem cascade_fold_preserves (now q : Nat) :
    ∀ (rels : List Nat) (acc : CWorld × List CEv) (w0 : CWorld),
      acc.1.recs.filter (fun r => r.pk == q) =
        w0.recs.filter (fun r => r.pk == q) →
      (∃ s, CWorld.find w0 q = some s ∧ s.deleted.isSome = true) →
      (rels.foldl (cascadeStep now) acc).1.recs.filter (fun r => r.pk == q) =
        w0.recs.filter (fun r => r.pk == q) := by
  intro rels
  induction rels with
  | nil => intro acc w0 h hs; exact h
  | cons p ps ih =>
      intro acc w0 h hs
      rw [List.foldl_cons]
      refine ih (cascadeStep now acc p) w0 ?_ hs
      unfold cascadeStep
      cases hf : acc.1.find p with
      | none => exact h
      | some s =>
          by_cases hd : s.deleted.isSome = true
          · simp [hd]; exact h
          · simp only [hd, Bool.false_eq_true, if_false]
            by_cases hpq : p = q
            · subst hpq
              obtain ⟨s', hs', hd'⟩ := hs
              have heq : CWorld.find acc.1 p = CWorld.find w0 p :=
                find_eq_of_filter_q_eq _ _ p h
              rw [hf, hs'] at heq
              cases heq
              exact absurd hd' hd
            · unfold softDeleteRow
              exact (filter_q_setDeleted_other acc.1 p q (some now) hpq).trans h

/-- Helper: the `post_undelete` event trace of one undelete save never
mentions a different pk. -/
theorem tr1_not_mem (pk q : Nat) (hne : pk ≠ q) :
    CEv.cSigPostUndelete q ∉
      ([CEv.cFieldDeletedSet pk none, CEv.cPersistRow pk]
        ++ (if pk != 0 then [CEv.cSigPostUndelete pk] else [])) := by
  cases hz : (pk != 0)
  · simp [hz]
  · simp [hz]
    exact fun hqp => hne (by simp [hqp])

/-- Helper: in `undeleteF (n+1)` on a deleted record, the cleared pk
differs from any pk all of whose rows are non-deleted. -/
theorem undelete_pk_ne (w : CWorld) (pk q : Nat) (r : CRec)
    (hf : CWorld.find w pk = some r) (hd : r.deleted.isSome = true)
    (hq : ∀ r ∈ w.recs, r.pk = q → r.deleted = none) : pk ≠ q := by
  intro hpq
  subst hpq
  unfold CWorld.find at hf
  have hmem : r ∈ w.recs := List.mem_of_find?_eq_some hf
  have hpk := List.find?_some hf
  have : r.deleted = none := hq r hmem (by simpa using hpk)
  rw [this] at hd
  simp at hd

/-- Helper: skip property of the cascade-undelete loop, given the skip
property of `undeleteF` at the same fuel. -/
theorem undeleteList_skip_of (n : Nat)
    (hF : ∀ w pk fp w' tr q, undeleteF n w pk fp = .ok (w', tr) →
      (∀ r ∈ w.recs, r.pk = q → r.deleted = none) →
      w'.recs.filter (fun r => r.pk == q) =
          w.recs.filter (fun r => r.pk == q) ∧
        CEv.cSigPostUndelete q ∉ tr) :
    ∀ qs w w' tr q, undeleteList n w qs = .ok (w', tr) →
      (∀ r ∈ w.recs, r.pk = q → r.deleted = none) →
      w'.recs.filter (fun r => r.pk == q) =
          w.recs.filter (fun r => r.pk == q) ∧
        CEv.cSigPostUndelete q ∉ tr := by
  intro qs
  induction qs with
  | nil =>
      intro w w' tr q h hq
      simp only [undeleteList, Except.ok.injEq, Prod.mk.injEq] at h
      obtain ⟨rfl, rfl⟩ := h
      exact ⟨rfl, by simp⟩
  | cons p ps ih =>
      intro w w' tr q h hq
      simp only [undeleteList] at h
      cases hf : w.find p with
      | none =>
          simp only [hf] at h
          exact ih w w' tr q h hq
      | some s =>
          simp only [hf] at h
          by_cases hd : s.deleted.isSome = true
          · rw [if_pos hd] at h
            cases hcall : undeleteF n w p none with
            | error e => simp [hcall] at h
            | ok res =>
                obtain ⟨w1, tr1⟩ := res
                simp only [hcall] at h
                cases hrest : undeleteList n w1 ps with
                | error e => simp [hrest] at h
                | ok res2 =>
                    obtain ⟨w2, tr2⟩ := res2
                    simp only [hrest, Except.ok.injEq, Prod.mk.injEq] at h
                    obtain ⟨rfl, rfl⟩ := h
                    obtain ⟨hfil1, hmem1⟩ := hF w p none w1 tr1 q hcall hq
                    have hq1 : ∀ r ∈ w1.recs, r.pk = q → r.deleted = none :=
                      notdel_of_filter_q_eq w1 w q hfil1 hq
                    obtain ⟨hfil2, hmem2⟩ := ih w1 w2 tr2 q hrest hq1
                    refine ⟨hfil2.trans hfil1, ?_⟩
                    rw [List.mem_append]
                    rintro (hm | hm)
                    · exact hmem1 hm
                    · exact hmem2 hm
          · rw [if_neg hd] at h
            exact ih w w' tr q h hq

/-- Helper: during a cascade undelete, a record whose rows are all
non-deleted is never touched and never receives a `post_undelete`. -/
theorem undeleteF_skip : ∀ fuel w pk fp w' tr q,
    undeleteF fuel w pk fp = .ok (w', tr) →
    (∀ r ∈ w.recs, r.pk = q → r.deleted = none) →
    w'.recs.filter (fun r => r.pk == q) =
        w.recs.filter (fun r => r.pk == q) ∧
      CEv.cSigPostUndelete q ∉ tr := by
  intro fuel
  induction fuel with
  | zero =>
      intro w pk fp w' tr q h
      simp [undeleteF] at h
  | succ n ih =>
      intro w pk fp w' tr q h hq
      simp only [undeleteF] at h
      cases hf : w.find pk with
      | none =>
          simp only [hf, Except.ok.injEq, Prod.mk.injEq] at h
          obtain ⟨rfl, rfl⟩ := h
          exact ⟨rfl, by simp⟩
      | some r =>
          simp only [hf] at h
          by_cases hd : r.deleted.isSome = true
          · rw [if_pos hd] at h
            have hne : pk ≠ q := undelete_pk_ne w pk q r hf hd hq
            have hfil1 : (setDeletedField w pk none).recs.filter
                (fun r => r.pk == q) = w.recs.filter (fun r => r.pk == q) :=
              filter_q_setDeleted_other w pk q none hne
            have hq1 : ∀ r' ∈ (setDeletedField w pk none).recs,
                r'.pk = q → r'.deleted = none :=
              notdel_of_filter_q_eq _ w q hfil1 hq
            by_cases hc : fp.getD r.policy = Pol.softDeleteCascade
            · rw [if_pos hc] at h
              cases hl : undeleteList n (setDeletedField w pk none)
                  (relatedOf (setDeletedField w pk none) pk) with
              | error e => simp [hl] at h
              | ok res2 =>
                  obtain ⟨w2, tr2⟩ := res2
                  simp only [hl, Except.ok.injEq, Prod.mk.injEq] at h
                  obtain ⟨rfl, rfl⟩ := h
                  obtain ⟨hfil2, hmem2⟩ := undeleteList_skip_of n ih _ _ _ _ q
                    hl hq1
                  refine ⟨hfil2.trans hfil1, ?_⟩
                  rw [List.mem_append]
                  rintro (hm | hm)
                  · exact tr1_not_mem pk q hne hm
                  · exact hmem2 hm
            · rw [if_neg hc] at h
              simp only [Except.ok.injEq, Prod.mk.injEq] at h
              obtain ⟨rfl, rfl⟩ := h
              exact ⟨hfil1, tr1_not_mem pk q hne⟩
          · rw [if_neg hd] at h
            cases h

/-- Helper: count monotonicity of the cascade-undelete loop, given it for
`undeleteF` at the same fuel. -/
theorem undeleteList_mono_of (n : Nat)
    (hF : ∀ w pk fp w' tr, undeleteF n w pk fp = .ok (w', tr) →
      deletedCount w' ≤ deletedCount w) :
    ∀ qs w w' tr, undeleteList n w qs = .ok (w', tr) →
      deletedCount w' ≤ deletedCount w := by
  intro qs
  induction qs with
  | nil =>
      intro w w' tr h
      simp only [undeleteList, Except.ok.injEq, Prod.mk.injEq] at h
      obtain ⟨rfl, rfl⟩ := h
      exact le_refl _
  | cons p ps ih =>
      intro w w' tr h
      simp only [undeleteList] at h
      cases hf : w.find p with
      | none =>
          simp only [hf] at h
          exact ih w w' tr h
      | some s =>
          simp only [hf] at h
          by_cases hd : s.deleted.isSome = true
          · rw [if_pos hd] at h
            cases hcall : undeleteF n w p none with
            | error e => simp [hcall] at h
            | ok res =>
                obtain ⟨w1, tr1⟩ := res
                simp only [hcall] at h
                cases hrest : undeleteList n w1 ps with
                | error e => simp [hrest] at h
                | ok res2 =>
                    obtain ⟨w2, tr2⟩ := res2
                    simp only [hrest, Except.ok.injEq, Prod.mk.injEq] at h
                    obtain ⟨rfl, rfl⟩ := h
                    exact le_trans (ih w1 w2 tr2 hrest)
                      (hF w p none w1 tr1 hcall)
          · rw [if_neg hd] at h
            exact ih w w' tr h

/-- Helper: cascade undelete never increases the number of deleted rows. -/
theorem undeleteF_mono : ∀ fuel w pk fp w' tr,
    undeleteF fuel w pk fp = .ok (w', tr) →
    deletedCount w' ≤ deletedCount w := by
  intro fuel
  induction fuel with
  | zero =>
      intro w pk fp w' tr h
      simp [undeleteF] at h
  | succ n ih =>
      intro w pk fp w' tr h
      simp only [undeleteF] at h
      cases hf : w.find pk with
      | none =>
          simp only [hf, Except.ok.injEq, Prod.mk.injEq] at h
          obtain ⟨rfl, rfl⟩ := h
          exact le_refl _
      | some r =>
          simp only [hf] at h
          by_cases hd : r.deleted.isSome = true
          · rw [if_pos hd] at h
            by_cases hc : fp.getD r.policy = Pol.softDeleteCascade
            · rw [if_pos hc] at h
              cases hl : undeleteList n (setDeletedField w pk none)
                  (relatedOf (setDeletedField w pk none) pk) with
              | error e => simp [hl] at h
              | ok res2 =>
                  obtain ⟨w2, tr2⟩ := res2
                  simp only [hl, Except.ok.injEq, Prod.mk.injEq] at h
                  obtain ⟨rfl, rfl⟩ := h
                  exact le_trans (undeleteList_mono_of n ih _ _ _ _ hl)
                    (deletedCount_clear_le w pk)
            · rw [if_neg hc] at h
              simp only [Except.ok.injEq, Prod.mk.injEq] at h
              obtain ⟨rfl, rfl⟩ := h
              exact deletedCount_clear_le w pk
          · rw [if_neg hd] at h
            cases h

/-- Helper: fuel-sufficiency of the cascade-undelete loop, given it for
`undeleteF` at the same fuel. -/
theorem undeleteList_safe_of (n : Nat)
    (hFs : ∀ w pk fp, deletedCount w < n →
      undeleteF n w pk fp ≠ .error CErr.fuelOut) :
    ∀ qs w, deletedCount w < n →
      undeleteList n w qs ≠ .error CErr.fuelOut := by
  intro qs
  induction qs with
  | nil =>
      intro w hc h
      simp [undeleteList] at h
  | cons p ps ih =>
      intro w hc h
      simp only [undeleteList] at h
      cases hf : w.find p with
      | none =>
          simp only [hf] at h
          exact ih w hc h
      | some s =>
          simp only [hf] at h
          by_cases hd : s.deleted.isSome = true
          · rw [if_pos hd] at h
            cases hcall : undeleteF n w p none with
            | error e =>
                simp only [hcall] at h
                have he : e = CErr.fuelOut := by
                  simp only [Except.error.injEq] at h
                  exact h
                exact hFs w p none hc (by rw [hcall, he])
            | ok res =>
                obtain ⟨w1, tr1⟩ := res
                simp only [hcall] at h
                cases hrest : undeleteList n w1 ps with
                | error e =>
                    simp only [hrest] at h
                    have he : e = CErr.fuelOut := by
                      simp only [Except.error.injEq] at h
                      exact h
                    have hlt : deletedCount w1 < n :=
                      lt_of_le_of_lt (undeleteF_mono n w p none w1 tr1 hcall) hc
                    exact ih w1 hlt (by rw [hrest, he])
                | ok res2 => simp [hrest] at h
          · rw [if_neg hd] at h
            exact ih w hc h

/-- Helper: fuel exceeding the number of currently-deleted rows is always
sufficient — the fueled embedding never reports exhaustion, which is the
termination argument for cascading undeletes over cyclic graphs: each
nesting level first clears one deleted row, so the recursion depth is
bounded by the number of deleted rows. -/
theorem undeleteF_safe : ∀ fuel w pk fp, deletedCount w < fuel →
    undeleteF fuel w pk fp ≠ .error CErr.fuelOut := by
  intro fuel
  induction fuel with
  | zero =>
      intro w pk fp hc
      exact absurd hc (Nat.not_lt_zero _)
  | succ n ih =>
      intro w pk fp hc h
      simp only [undeleteF] at h
      cases hf : w.find pk with
      | none => simp [hf] at h
      | some r =>
          simp only [hf] at h
          by_cases hd : r.deleted.isSome = true
          · rw [if_pos hd] at h
            by_cases hcas : fp.getD r.policy = Pol.softDeleteCascade
            · rw [if_pos hcas] at h
              cases hl : undeleteList n (setDeletedField w pk none)
                  (relatedOf (setDeletedField w pk none) pk) with
              | error e =>
                  simp only [hl] at h
                  have he : e = CErr.fuelOut := by
                    simp only [Except.error.injEq] at h
                    exact h
                  have hlt : deletedCount (setDeletedField w pk none) < n := by
                    have h1 := deletedCount_clear_lt w pk r hf hd
                    omega
                  exact undeleteList_safe_of n ih _ _ hlt (by rw [hl, he])
              | ok res => simp [hl] at h
            · rw [if_neg hcas] at h
              simp at h
          · rw [if_neg hd] at h
            simp at h

/-- Helper: during a `SOFT_DELETE_CASCADE` delete, a related record that
is already marked deleted keeps its original timestamp (it is skipped by
the `not related.deleted` guard, and the final self-delete touches only
the acting record). -/
theorem deleteCascade_skips (w : CWorld) (pk now q : Nat) (s : CRec)
    (hqpk : q ≠ pk) (hfq : CWorld.find w q = some s)
    (hd : s.deleted.isSome = true) :
    CWorld.find (deleteCascade w pk now).1 q = some s := by
  have hfold := cascade_fold_preserves now q (relatedOf w pk) (w, []) w rfl
    ⟨s, hfq, hd⟩
  have hpkq : pk ≠ q := fun he => hqpk he.symm
  have hstep :=
    (filter_q_setDeleted_other
      ((relatedOf w pk).foldl (cascadeStep now) (w, [])).1 pk q (some now)
      hpkq).trans hfold
  have hfind := find_eq_of_filter_q_eq
    (setDeletedField ((relatedOf w pk).foldl (cascadeStep now) (w, [])).1
      pk (some now)) w q hstep
  show CWorld.find
    (setDeletedField ((relatedOf w pk).foldl (cascadeStep now) (w, [])).1
      pk (some now)) q = some s
  exact hfind.trans hfq

/-- C4: cascade traversal terminates on every finite relationship graph,
including cyclic ones.  (a) During a `SOFT_DELETE_CASCADE` delete, a
related record that is already marked deleted is skipped — its record
(timestamp included) is unchanged.  (b) During a `SOFT_DELETE_CASCADE`
undelete, a record that is not marked deleted is skipped — its record is
unchanged and no `post_undelete` is emitted for it.  (c) Fuel exceeding
the number of deleted rows is always sufficient: the recursion clears one
deleted record per nesting level, so it reaches no record twice in the
same deleted-state and cannot loop. -/
theorem C4_cascade_tolerates_cycles :
    (∀ w pk now q s, q ≠ pk → CWorld.find w q = some s →
      s.deleted.isSome = true →
      CWorld.find (deleteCascade w pk now).1 q = some s) ∧
    (∀ fuel w pk fp w' tr q, undeleteF fuel w pk fp = .ok (w', tr) →
      (∀ r ∈ w.recs, r.pk = q → r.deleted = none) →
      CWorld.find w' q = CWorld.find w q ∧ CEv.cSigPostUndelete q ∉ tr) ∧
    (∀ w pk fp, undeleteF (deletedCount w + 1) w pk fp ≠
      .error CErr.fuelOut) := by
  refine ⟨?_, ?_, ?_⟩
  · intro w pk now q s h1 h2 h3
    exact deleteCascade_skips w pk now q s h1 h2 h3
  · intro fuel w pk fp w' tr q h hq
    obtain ⟨hfil, hmem⟩ := undeleteF_skip fuel w pk fp w' tr q h hq
    exact ⟨find_eq_of_filter_q_eq w' w q hfil, hmem⟩
  · intro w pk fp
    exact undeleteF_safe (deletedCount w + 1) w pk fp (Nat.lt_succ_self _)

/-- Witness for `C4_cascade_tolerates_cycles` on a concrete cyclic
relationship graph (`1 → 2 → 1`, plus a non-deleted record `3`). -/
theorem C4_cascade_tolerates_cycles_witness :
    CWorld.find (deleteCascade
      ⟨[⟨1, some 3, Pol.softDeleteCascade⟩, ⟨2, some 4, Pol.softDeleteCascade⟩,
        ⟨3, none, Pol.softDeleteCascade⟩], [(1, [2, 3]), (2, [1])]⟩ 1 9).1 2 =
      some ⟨2, some 4, Pol.softDeleteCascade⟩ ∧
    (CWorld.find
        ⟨[⟨1, none, Pol.softDeleteCascade⟩, ⟨2, none, Pol.softDeleteCascade⟩,
          ⟨3, none, Pol.softDeleteCascade⟩], [(1, [2, 3]), (2, [1])]⟩ 3 =
      CWorld.find
        ⟨[⟨1, some 3, Pol.softDeleteCascade⟩, ⟨2, some 4, Pol.softDeleteCascade⟩,
          ⟨3, none, Pol.softDeleteCascade⟩], [(1, [2, 3]), (2, [1])]⟩ 3 ∧
      CEv.cSigPostUndelete 3 ∉
        [CEv.cFieldDeletedSet 1 none, CEv.cPersistRow 1,
         CEv.cSigPostUndelete 1, CEv.cFieldDeletedSet 2 none,
         CEv.cPersistRow 2, CEv.cSigPostUndelete 2]) ∧
    undeleteF (deletedCount
      ⟨[⟨1, some 3, Pol.softDeleteCascade⟩, ⟨2, some 4, Pol.softDeleteCascade⟩,
        ⟨3, none, Pol.softDeleteCascade⟩], [(1, [2, 3]), (2, [1])]⟩ + 1)
      ⟨[⟨1, some 3, Pol.softDeleteCascade⟩, ⟨2, some 4, Pol.softDeleteCascade⟩,
        ⟨3, none, Pol.softDeleteCascade⟩], [(1, [2, 3]), (2, [1])]⟩ 1 none ≠
      .error CErr.fuelOut := by
  refine ⟨?_, ?_, ?_⟩
  · exact C4_cascade_tolerates_cycles.1 _ 1 9 2
      ⟨2, some 4, Pol.softDeleteCascade⟩ (by decide) rfl rfl
  · exact C4_cascade_tolerates_cycles.2.1 4 _ 1 none _ _ 3
      (by simp [undeleteF, undeleteList, CWorld.find, relatedOf,
        setDeletedField]) (by decide)
  · exact C4_cascade_tolerates_cycles.2.2 _ 1 none

/-- Helper: `find?` by pk commutes with a pk-preserving row map. -/
theorem find?_map_comm {g : ORec → ORec} (hg : ∀ r, (g r).pk = r.pk)
    (pk0 : Nat) (recs : List ORec) :
    List.find? (fun r => r.pk == pk0) (recs.map g) =
      (List.find? (fun r => r.pk == pk0) recs).map g := by
  induction recs with
  | nil => rfl
  | cons r rs ih =>
      rw [List.map_cons]
      by_cases h : (r.pk == pk0) = true
      · rw [@List.find?_cons_of_pos _ (fun r => r.pk == pk0) (g r) (rs.map g)
          (by show ((g r).pk == pk0) = true
              rw [hg r]
              exact h),
          @List.find?_cons_of_pos _ (fun r => r.pk == pk0) r rs h]
        rfl
      · rw [@List.find?_cons_of_neg _ (fun r => r.pk == pk0) (g r) (rs.map g)
          (by show ¬ ((g r).pk == pk0) = true
              rw [hg r]
              exact h),
          @List.find?_cons_of_neg _ (fun r => r.pk == pk0) r rs h, ih]

/-- Helper: with unique pks, `find` at a member's pk returns that member. -/
theorem find_of_mem_pknodup (w : OWorld) (hpk : PkNodup w) (r : ORec)
    (hr : r ∈ w.recs) : OWorld.find w r.pk = some r := by
  obtain ⟨resp, recs⟩ := w
  simp only [OWorld.find, PkNodup] at *
  induction recs with
  | nil => cases hr
  | cons r0 rs ih =>
      rw [List.map_cons, List.nodup_cons] at hpk
      rcases List.mem_cons.mp hr with rfl | hmem
      · exact List.find?_cons_of_pos _ (by simp)
      · have hne : ¬ (r0.pk == r.pk) = true := by
          intro he
          exact hpk.1 (by
            rw [show r0.pk = r.pk from by simpa using he]
            exact List.mem_map_of_mem ORec.pk hmem)
        rw [@List.find?_cons_of_neg _ (fun r1 => r1.pk == r.pk) r0 rs hne]
        exact ih hpk.2 hmem

/-- Helper: `find` through a bulk shift. -/
theorem find_shiftWhere (w : OWorld) (k : Nat) (q : Int → Prop)
    [DecidablePred q] (d : Int) (pk0 : Nat) :
    OWorld.find (shiftWhere w k q d) pk0 =
      (OWorld.find w pk0).map (fun r =>
        if r.deleted = none ∧ sKey w r = k ∧ q r.ord then
          { r with ord := r.ord + d } else r) := by
  unfold OWorld.find shiftWhere
  exact find?_map_comm (fun r => by
    rcases Decidable.em (r.deleted = none ∧ sKey w r = k ∧ q r.ord) with hc | hc <;>
      simp [hc]) pk0 w.recs

/-- Helper: `find` through a `save` persist of an existing row. -/
theorem find_saveRow (w : OWorld) (pk : Nat) (v : Int) (pk0 : Nat) :
    OWorld.find (saveRow w pk v) pk0 =
      (OWorld.find w pk0).map (fun r =>
        if r.pk = pk then { r with ord := v, deleted := none } else r) := by
  unfold OWorld.find saveRow
  exact find?_map_comm (fun r => by
    rcases Decidable.em (r.pk = pk) with hc | hc <;> simp [hc]) pk0 w.recs

/-- C9, counterexample: a soft-deleted same-scope record whose order lies
in the shift range (here at the target boundary 0, strictly below the old
position 1) is *not* shifted by `to()` — the ordering queryset sees only
non-deleted rows — contrary to the claim's "every same-scope record". -/
theorem C9_counterexample :
    toOp ⟨false, [⟨1, 0, 1, none⟩, ⟨2, 0, 0, some 7⟩]⟩ 1 (PyArg.pyInt 0) =
      .ok ⟨false, [⟨1, 0, 0, none⟩, ⟨2, 0, 0, some 7⟩]⟩ ∧
    (⟨2, 0, 0, some 7⟩ : ORec).ord = 0 ∧
    (⟨2, 0, 0, some 7⟩ : ORec).deleted ≠ none :=
  ⟨rfl, rfl, by decide⟩

/-- C9 (amended): `to(target_order)` is a no-op when the record is already
at `target_order`; otherwise it shifts every *non-deleted* same-scope
record whose order lies strictly between the old position and the target
(inclusive of the target boundary) by one opposite to the move, leaves all
other records untouched, and assigns `target_order` to the record — in
particular, in a scope with orders [0,1,2,3], `to(1)` on the record at
order 3 leaves the records originally at 1 and 2 with orders 2 and 3, the
mover at 1, and no two records sharing an order. -/
theorem C9_to_moves (w : OWorld) (pk : Nat) (self : ORec) (t : Int)
    (hpks : PkNodup w) (hfind : OWorld.find w pk = some self) :
    (t = self.ord → toOp w pk (PyArg.pyInt t) = .ok w) ∧
    (∀ w', toOp w pk (PyArg.pyInt t) = .ok w' → t ≠ self.ord →
      OWorld.find w' pk = some { self with ord := t, deleted := none } ∧
      (∀ r ∈ w.recs, r.pk ≠ pk →
        (r.deleted = none ∧ sKey w r = sKey w self →
          (t < self.ord → t ≤ r.ord → r.ord < self.ord →
            OWorld.find w' r.pk = some { r with ord := r.ord + 1 }) ∧
          (self.ord < t → self.ord < r.ord → r.ord ≤ t →
            OWorld.find w' r.pk = some { r with ord := r.ord - 1 }) ∧
          (¬ (t ≤ r.ord ∧ r.ord < self.ord) →
            ¬ (self.ord < r.ord ∧ r.ord ≤ t) →
            OWorld.find w' r.pk = some r)) ∧
        (¬ (r.deleted = none ∧ sKey w r = sKey w self) →
          OWorld.find w' r.pk = some r))) ∧
    (toOp ⟨false, [⟨1, 0, 0, none⟩, ⟨2, 0, 1, none⟩, ⟨3, 0, 2, none⟩,
        ⟨4, 0, 3, none⟩]⟩ 4 (PyArg.pyInt 1) =
      .ok ⟨false, [⟨1, 0, 0, none⟩, ⟨2, 0, 2, none⟩, ⟨3, 0, 3, none⟩,
        ⟨4, 0, 1, none⟩]⟩ ∧
      (orders ⟨false, [⟨1, 0, 0, none⟩, ⟨2, 0, 2, none⟩, ⟨3, 0, 3, none⟩,
        ⟨4, 0, 1, none⟩]⟩ 0).Nodup) := by
  have hpkself : self.pk = pk := by
    have h1 := List.find?_some (show List.find? (fun r => r.pk == pk) w.recs
      = some self from hfind)
    simpa using h1
  refine ⟨?_, ?_, rfl, by decide⟩
  · intro ht
    simp only [toOp, hfind]
    rw [if_pos ht.symm]
  · intro w' hok hne
    simp only [toOp, hfind] at hok
    rw [if_neg (fun he => hne he.symm)] at hok
    by_cases hlt : self.ord > t
    · rw [if_pos hlt] at hok
      simp only [Except.ok.injEq] at hok
      subst hok
      constructor
      · rw [find_saveRow, find_shiftWhere, hfind]
        simp [hpkself]
      · intro r hr hrpk
        have hfr := find_of_mem_pknodup w hpks r hr
        constructor
        · rintro ⟨hd, hk⟩
          refine ⟨fun h1 h2 h3 => ?_, fun h1 _ _ => absurd h1 (by omega),
            fun h1 _ => ?_⟩
          · rw [find_saveRow, find_shiftWhere, hfr]
            simp [hd, hk, h2, h3, hrpk]
          · have hcf : ¬ (r.ord < self.ord ∧ t ≤ r.ord) :=
              fun hand => h1 ⟨hand.2, hand.1⟩
            rw [find_saveRow, find_shiftWhere, hfr]
            simp [hd, hk, hcf, hrpk]
        · intro hc
          have hcf : ¬ (r.deleted = none ∧ sKey w r = sKey w self ∧
              (r.ord < self.ord ∧ t ≤ r.ord)) :=
            fun hand => hc ⟨hand.1, hand.2.1⟩
          rw [find_saveRow, find_shiftWhere, hfr]
          simp [hcf, hrpk]
    · rw [if_neg hlt] at hok
      simp only [Except.ok.injEq] at hok
      subst hok
      have hso : self.ord < t := by
        rcases lt_trichotomy self.ord t with h | h | h
        · exact h
        · exact absurd h.symm hne
        · exact absurd h (by omega)
      constructor
      · rw [find_saveRow, find_shiftWhere, hfind]
        simp [hpkself]
      · intro r hr hrpk
        have hfr := find_of_mem_pknodup w hpks r hr
        constructor
        · rintro ⟨hd, hk⟩
          refine ⟨fun h1 _ _ => absurd h1 (by omega),
            fun h1 h2 h3 => ?_, fun _ h1 => ?_⟩
          · rw [find_saveRow, find_shiftWhere, hfr]
            simp [hd, hk, h2, h3, hrpk]
            rfl
          · rw [find_saveRow, find_shiftWhere, hfr]
            simp [hd, hk, h1, hrpk]
        · intro hc
          have hcf : ¬ (r.deleted = none ∧ sKey w r = sKey w self ∧
              (self.ord < r.ord ∧ r.ord ≤ t)) :=
            fun hand => hc ⟨hand.1, hand.2.1⟩
          rw [find_saveRow, find_shiftWhere, hfr]
          simp [hcf, hrpk]

/-- Witness for `C9_to_moves` on the concrete [0,1,2,3] scope. -/
theorem C9_to_moves_witness :
    OWorld.find (saveRow (shiftWhere
        ⟨false, [⟨1, 0, 0, none⟩, ⟨2, 0, 1, none⟩, ⟨3, 0, 2, none⟩,
          ⟨4, 0, 3, none⟩]⟩ 0 (fun o => o < (3 : Int) ∧ (1 : Int) ≤ o) 1)
        4 1) 4 = some ⟨4, 0, 1, none⟩ ∧
    OWorld.find (saveRow (shiftWhere
        ⟨false, [⟨1, 0, 0, none⟩, ⟨2, 0, 1, none⟩, ⟨3, 0, 2, none⟩,
          ⟨4, 0, 3, none⟩]⟩ 0 (fun o => o < (3 : Int) ∧ (1 : Int) ≤ o) 1)
        4 1) 2 = some ⟨2, 0, 2, none⟩ := by
  have h := C9_to_moves
    ⟨false, [⟨1, 0, 0, none⟩, ⟨2, 0, 1, none⟩, ⟨3, 0, 2, none⟩,
      ⟨4, 0, 3, none⟩]⟩ 4 ⟨4, 0, 3, none⟩ 1 (by unfold PkNodup; decide) rfl
  obtain ⟨hmov, hrows⟩ := h.2.1 _ rfl (by decide)
  exact ⟨hmov,
    (hrows ⟨2, 0, 1, none⟩ (by decide) (by decide)).1 ⟨rfl, rfl⟩
      |>.1 (by decide) (by decide) (by decide)⟩

/-- Helper: the scope key only reads `respect`, not the stored rows. -/
theorem sKey_recs (w : OWorld) (X : List ORec) (r : ORec) :
    sKey { w with recs := X } r = sKey w r := rfl

/-- Helper: the scope key ignores the order field. -/
theorem sKey_set_ord (w : OWorld) (r : ORec) (v : Int) :
    sKey w { r with ord := v } = sKey w r := rfl

/-- Helper: the scope key ignores the deletion mark. -/
theorem sKey_set_del (w : OWorld) (r : ORec) (dv : Option Nat) :
    sKey w { r with deleted := dv } = sKey w r := rfl

/-- Helper: the scope key ignores a simultaneous order/deletion write. -/
theorem sKey_set_ord_del (w : OWorld) (r : ORec) (v : Int) (dv : Option Nat) :
    sKey w { r with ord := v, deleted := dv } = sKey w r := rfl

/-- Helper: the scope key of any row literal built on `r`'s scope value. -/
theorem sKey_mk_scope (w : OWorld) (p : Nat) (r : ORec) (o : Int)
    (dv : Option Nat) : sKey w ⟨p, r.scope, o, dv⟩ = sKey w r := rfl

/-- Helper: a bulk shift transforms the same scope's queryset pointwise. -/
theorem visibleIn_shiftWhere_eq (w : OWorld) (k : Nat) (q : Int → Prop)
    [DecidablePred q] (d : Int) :
    visibleIn (shiftWhere w k q d) k =
      (visibleIn w k).map (fun r =>
        if q r.ord then { r with ord := r.ord + d } else r) := by
  simp only [visibleIn, shiftWhere, sKey_recs]
  induction w.recs with
  | nil => rfl
  | cons r rs ih =>
      simp only [Bool.decide_and, decide_not] at ih
      by_cases hv : r.deleted = none
      · by_cases hk : sKey w r = k
        · by_cases hq : q r.ord
          · simp [List.filter_cons, hv, hk, hq, sKey_set_ord, sKey_mk_scope, ih]
          · simp [List.filter_cons, hv, hk, hq, ih]
        · simp [List.filter_cons, hv, hk, ih]
      · simp [List.filter_cons, hv, ih]

/-- Helper: a bulk shift leaves every other scope's queryset unchanged. -/
theorem visibleIn_shiftWhere_ne (w : OWorld) (k k0 : Nat) (q : Int → Prop)
    [DecidablePred q] (d : Int) (hk : ¬ k0 = k) :
    visibleIn (shiftWhere w k q d) k0 = visibleIn w k0 := by
  simp only [visibleIn, shiftWhere, sKey_recs]
  induction w.recs with
  | nil => rfl
  | cons r rs ih =>
      simp only [Bool.decide_and, decide_not] at ih
      by_cases hv : r.deleted = none
      · by_cases hkk : sKey w r = k
        · by_cases hq : q r.ord
          · have hne : ¬ sKey w r = k0 := by rw [hkk]; exact fun h => hk h.symm
            have hkn : ¬ k = k0 := fun h => hk h.symm
            simp [List.filter_cons, hv, hkk, hq, hne, hkn, sKey_set_ord,
              sKey_mk_scope, ih]
          · simp [List.filter_cons, hv, hkk, hq, ih]
        · simp [List.filter_cons, hv, hkk, ih]
      · simp [List.filter_cons, hv, ih]

/-- Helper: when every row holding the acting pk is non-deleted, a persist
transforms each scope's queryset pointwise. -/
theorem visibleIn_saveRow (w : OWorld) (pk : Nat) (v : Int) (k : Nat)
    (hall : ∀ r ∈ w.recs, r.pk = pk → r.deleted = none) :
    visibleIn (saveRow w pk v) k =
      (visibleIn w k).map (fun r =>
        if r.pk = pk then { r with ord := v, deleted := none } else r) := by
  simp only [visibleIn, saveRow, sKey_recs]
  have H : ∀ recs : List ORec, (∀ r ∈ recs, r.pk = pk → r.deleted = none) →
      List.filter (fun r => decide (r.deleted = none ∧ sKey w r = k))
          (recs.map (fun r =>
            if r.pk = pk then { r with ord := v, deleted := none } else r)) =
        (recs.filter (fun r => decide (r.deleted = none ∧ sKey w r = k))).map
          (fun r =>
            if r.pk = pk then { r with ord := v, deleted := none } else r) := by
    intro recs
    induction recs with
    | nil => intro _; rfl
    | cons r rs ih =>
        intro hall0
        have hallr := ih (fun r1 h1 h2 => hall0 r1 (List.mem_cons_of_mem _ h1) h2)
        simp only [Bool.decide_and, decide_not] at hallr
        by_cases hp : r.pk = pk
        · have hv : r.deleted = none := hall0 r (List.mem_cons_self r rs) hp
          by_cases hk : sKey w r = k
          · simp [List.filter_cons, hv, hk, hp, sKey_set_ord_del, sKey_mk_scope, hallr]
          · simp [List.filter_cons, hv, hk, hp, sKey_set_ord_del, sKey_mk_scope, hallr]
        · by_cases hv : r.deleted = none
          · by_cases hk : sKey w r = k
            · simp [List.filter_cons, hv, hk, hp, hallr]
            · simp [List.filter_cons, hv, hk, hp, hallr]
          · simp [List.filter_cons, hv, hp, hallr]
  exact H w.recs hall

/-- Helper: soft-deleting a row hides exactly that pk from each scope's
queryset. -/
theorem visibleIn_markDeletedRow (w : OWorld) (pk now : Nat) (k : Nat) :
    visibleIn (markDeletedRow w pk now) k =
      (visibleIn w k).filter (fun r => decide (¬ r.pk = pk)) := by
  simp only [visibleIn, markDeletedRow, sKey_recs]
  induction w.recs with
  | nil => rfl
  | cons r rs ih =>
      simp only [Bool.decide_and, decide_not] at ih
      by_cases hp : r.pk = pk
      · by_cases hvk : r.deleted = none ∧ sKey w r = k
        · simp [List.filter_cons, hp, hvk, sKey_set_del, sKey_mk_scope, ih, -List.filter_filter]
        · simp [List.filter_cons, hp, hvk, sKey_set_del, sKey_mk_scope, ih, -List.filter_filter]
      · by_cases hv : r.deleted = none
        · by_cases hk : sKey w r = k
          · simp [List.filter_cons, hp, hv, hk, ih, -List.filter_filter]
          · simp [List.filter_cons, hp, hv, hk, ih, -List.filter_filter]
        · simp [List.filter_cons, hp, hv, ih, -List.filter_filter]

/-- Helper: hard-deleting a row hides exactly that pk from each scope's
queryset. -/
theorem visibleIn_removeRow (w : OWorld) (pk : Nat) (k : Nat) :
    visibleIn (removeRow w pk) k =
      (visibleIn w k).filter (fun r => decide (¬ r.pk = pk)) := by
  simp only [visibleIn, removeRow, sKey_recs]
  exact List.filter_comm _ _ _

/-- Helper: inserting rows appends their visible same-scope part to each
scope's queryset. -/
theorem visibleIn_append (w : OWorld) (X : List ORec) (k : Nat) :
    visibleIn { w with recs := w.recs ++ X } k =
      visibleIn w k ++
        X.filter (fun r => decide (r.deleted = none ∧ sKey w r = k)) := by
  simp only [visibleIn, sKey_recs, List.filter_append]

/-- Helper: a found non-deleted row sits in its own scope's queryset. -/
theorem self_mem_visibleIn (w : OWorld) (pk : Nat) (self : ORec)
    (hf : OWorld.find w pk = some self) (hd : self.deleted = none) :
    self ∈ visibleIn w (sKey w self) := by
  have hmem : self ∈ w.recs := List.mem_of_find?_eq_some hf
  simp only [visibleIn, List.mem_filter]
  exact ⟨hmem, by simp [hd]⟩

/-- Helper: the found row's pk is the pk it was looked up by. -/
theorem pk_of_find (w : OWorld) (pk : Nat) (self : ORec)
    (hf : OWorld.find w pk = some self) : self.pk = pk := by
  have h := List.find?_some hf
  simpa using h

/-- Helper: with unique pks, any stored row holding the acting pk is the
found row. -/
theorem eq_self_of_pk (w : OWorld) (hpk : PkNodup w) (pk : Nat)
    (self r : ORec) (hf : OWorld.find w pk = some self) (hr : r ∈ w.recs)
    (hrpk : r.pk = pk) : r = self := by
  have h1 := find_of_mem_pknodup w hpk r hr
  rw [hrpk, hf] at h1
  exact (Option.some.inj h1).symm

/-- Helper: within a duplicate-free scope, the order value determines the
row. -/
theorem ord_inj_visibleIn (w : OWorld) (hinv : InvOrders w) (k : Nat)
    (r s : ORec) (hr : r ∈ visibleIn w k) (hs : s ∈ visibleIn w k)
    (ho : r.ord = s.ord) : r = s :=
  List.inj_on_of_nodup_map (hinv k) hr hs ho

/-- Helper: when the acting pk's row is found non-deleted, every stored row
holding that pk is non-deleted. -/
theorem hall_of_find (w : OWorld) (hpk : PkNodup w) (pk : Nat) (self : ORec)
    (hf : OWorld.find w pk = some self) (hd : self.deleted = none) :
    ∀ r ∈ w.recs, r.pk = pk → r.deleted = none := by
  intro r hr hrpk
  rw [eq_self_of_pk w hpk pk self r hf hr hrpk]
  exact hd

/-- Helper: acting-pk rows stay non-deleted through a bulk shift. -/
theorem hall_shiftWhere (w : OWorld) (k : Nat) (q : Int → Prop)
    [DecidablePred q] (d : Int) (pk : Nat)
    (hall : ∀ r ∈ w.recs, r.pk = pk → r.deleted = none) :
    ∀ r ∈ (shiftWhere w k q d).recs, r.pk = pk → r.deleted = none := by
  intro r hr hrpk
  simp only [shiftWhere, List.mem_map] at hr
  obtain ⟨r0, hr0, rfl⟩ := hr
  by_cases hc : r0.deleted = none ∧ sKey w r0 = k ∧ q r0.ord
  · rw [if_pos hc]
    exact hc.1
  · rw [if_neg hc]
    rw [if_neg hc] at hrpk
    exact hall r0 hr0 hrpk

/-- Helper: acting-pk rows stay non-deleted through any persist. -/
theorem hall_saveRow (w : OWorld) (pk0 : Nat) (v : Int) (pk : Nat)
    (hall : ∀ r ∈ w.recs, r.pk = pk → r.deleted = none) :
    ∀ r ∈ (saveRow w pk0 v).recs, r.pk = pk → r.deleted = none := by
  intro r hr hrpk
  simp only [saveRow, List.mem_map] at hr
  obtain ⟨r0, hr0, rfl⟩ := hr
  by_cases hc : r0.pk = pk0
  · rw [if_pos hc]
  · rw [if_neg hc]
    rw [if_neg hc] at hrpk
    exact hall r0 hr0 hrpk

/-- Helper: a passing ordering-reference validation means the two rows
share a scope key (`models.py` lines 283-288: equal respect-to values when
declared; one shared key otherwise). -/
theorem sKey_eq_of_validate (w : OWorld) (self ref : ORec)
    (h : validateOrderingReference w self ref = .ok ()) :
    sKey w self = sKey w ref := by
  unfold validateOrderingReference at h
  split_ifs at h with hc
  by_cases hresp : w.respect = true
  · have hsc : self.scope = ref.scope := by
      by_contra hne
      exact hc ⟨hresp, hne⟩
    simp [sKey, hresp, hsc]
  · have hfalse : w.respect = false := by
      revert hresp
      cases w.respect <;> simp
    simp [sKey, hfalse]

/-- Helper: each member of a list of order values is bounded by the
aggregate maximum. -/
theorem le_listMax : ∀ (l : List Int) (o : Int), o ∈ l →
    ∃ m, listMax l = some m ∧ o ≤ m := by
  intro l
  induction l with
  | nil => intro o ho; cases ho
  | cons a rest ih =>
      intro o ho
      rcases List.mem_cons.mp ho with rfl | hmem
      · cases hrest : listMax rest with
        | none => exact ⟨o, by simp [listMax, hrest], le_refl o⟩
        | some m => exact ⟨max o m, by simp [listMax, hrest], le_max_left o m⟩
      · obtain ⟨m, hm, hle⟩ := ih o hmem
        exact ⟨max a m, by simp [listMax, hm],
          le_trans hle (le_max_right a m)⟩

/-- Helper: every currently assigned order of a scope is strictly below
that scope's `get_next_order` (`queryset.py` lines 213-215). -/
theorem lt_getNextOrder (w : OWorld) (k : Nat) :
    ∀ o ∈ orders w k, o < getNextOrder w k := by
  intro o ho
  obtain ⟨m, hm, hle⟩ := le_listMax (orders w k) o ho
  unfold getNextOrder getMaxOrder
  simp only [hm]
  omega

/-- Helper: the `to`-shaped update — a bulk shift over the acting row's
scope followed by persisting the acting row at the target order — keeps
every scope's order list free of duplicates, provided the shift spares the
acting row and the induced order map is injective. -/
theorem saveShift_invOrders (w : OWorld) (pk : Nat) (self : ORec) (t : Int)
    (q : Int → Prop) [DecidablePred q] (d : Int)
    (hinv : InvOrders w) (hpk : PkNodup w)
    (hf : OWorld.find w pk = some self) (hd : self.deleted = none)
    (hqself : ¬ q self.ord)
    (hGinj : ∀ x y : Int,
      (if x = self.ord then t else if q x then x + d else x) =
        (if y = self.ord then t else if q y then y + d else y) → x = y) :
    InvOrders (saveRow (shiftWhere w (sKey w self) q d) pk t) := by
  have hspk : self.pk = pk := pk_of_find w pk self hf
  have hall : ∀ r ∈ w.recs, r.pk = pk → r.deleted = none :=
    hall_of_find w hpk pk self hf hd
  have hall1 := hall_shiftWhere w (sKey w self) q d pk hall
  have hselfmem : self ∈ visibleIn w (sKey w self) :=
    self_mem_visibleIn w pk self hf hd
  intro k0
  by_cases hk : k0 = sKey w self
  · subst hk
    have e1 : orders (saveRow (shiftWhere w (sKey w self) q d) pk t) (sKey w self)
        = ((orders w (sKey w self)).map
            (fun o => if o = self.ord then t else if q o then o + d else o)) := by
      rw [orders, visibleIn_saveRow _ _ _ _ hall1, visibleIn_shiftWhere_eq,
        orders]
      simp only [List.map_map]
      apply List.map_congr_left
      intro r hr
      by_cases hp : r.pk = pk
      · have hrself : r = self :=
          eq_self_of_pk w hpk pk self r hf (List.mem_of_mem_filter hr) hp
      -- the acting row is spared by the shift and lands on the target
        rw [hrself]
        simp [Function.comp, hqself, hspk]
      · have hordne : ¬ r.ord = self.ord := by
          intro he
          exact hp (by
            rw [ord_inj_visibleIn w hinv (sKey w self) r self hr hselfmem he]
            exact hspk)
        by_cases hq : q r.ord
        · simp [Function.comp, hq, hp, hordne]
        · simp [Function.comp, hq, hp, hordne]
    rw [e1]
    exact (hinv (sKey w self)).map (fun x y h => hGinj x y h)
  · have e1 : orders (saveRow (shiftWhere w (sKey w self) q d) pk t) k0
        = orders w k0 := by
      rw [orders, visibleIn_saveRow _ _ _ _ hall1,
        visibleIn_shiftWhere_ne w (sKey w self) k0 q d hk, List.map_map,
        orders]
      apply List.map_congr_left
      intro r hr
      have hp : ¬ r.pk = pk := by
        intro hp
        have hrself : r = self :=
          eq_self_of_pk w hpk pk self r hf (List.mem_of_mem_filter hr) hp
        apply hk
        have hk0 : sKey w r = k0 := by
          have h2 := (List.mem_filter.mp hr).2
          simp at h2
          exact h2.2
        rw [← hk0, hrself]
      simp [Function.comp, hp]
    rw [e1]
    exact hinv k0

/-- Helper: every completed `to` keeps each scope's order list free of
duplicates. -/
theorem toOp_preserves (w : OWorld) (pk : Nat) (arg : PyArg) (self : ORec)
    (hinv : InvOrders w) (hpk : PkNodup w)
    (hf : OWorld.find w pk = some self) (hd : self.deleted = none) :
    ∀ w', toOp w pk arg = .ok w' → InvOrders w' := by
  intro w' hok
  cases arg with
  | pyNone => simp [toOp] at hok
  | pyStr s => simp [toOp] at hok
  | pyInt t =>
      simp only [toOp, hf] at hok
      by_cases heq : self.ord = t
      · rw [if_pos heq] at hok
        cases hok
        exact hinv
      · rw [if_neg heq] at hok
        by_cases hgt : self.ord > t
        · rw [if_pos hgt] at hok
          cases hok
          exact saveShift_invOrders w pk self t
            (fun o => o < self.ord ∧ t ≤ o) 1 hinv hpk hf hd
            (by omega)
            (by intro x y h; split_ifs at h <;> omega)
        · rw [if_neg hgt] at hok
          cases hok
          have hlt : self.ord < t := by omega
          exact saveShift_invOrders w pk self t
            (fun o => self.ord < o ∧ o ≤ t) (-1) hinv hpk hf hd
            (by omega)
            (by intro x y h; split_ifs at h <;> omega)

/-- Helper: the delete-shaped update — decrement the visible same-scope
rows above the acting row, then hide the acting row — keeps every scope's
order list free of duplicates; stated over the hidden-row queryset shape
shared by the soft and hard policies. -/
theorem delete_hidden_nodup (w : OWorld) (pk : Nat) (self : ORec)
    (hinv : InvOrders w) (hpk : PkNodup w)
    (hf : OWorld.find w pk = some self) (hd : self.deleted = none) :
    ∀ k0, ((((visibleIn (shiftWhere w (sKey w self)
        (fun o => self.ord < o) (-1)) k0)).filter
          (fun r => decide (¬ r.pk = pk))).map ORec.ord).Nodup := by
  have hspk : self.pk = pk := pk_of_find w pk self hf
  have hselfmem : self ∈ visibleIn w (sKey w self) :=
    self_mem_visibleIn w pk self hf hd
  intro k0
  by_cases hk : k0 = sKey w self
  · subst hk
    rw [visibleIn_shiftWhere_eq]
    apply List.Nodup.map_on
    · intro x hx y hy hxy
      obtain ⟨hx1, hx2⟩ := List.mem_filter.mp hx
      obtain ⟨hy1, hy2⟩ := List.mem_filter.mp hy
      obtain ⟨x0, hx0, rfl⟩ := List.mem_map.mp hx1
      obtain ⟨y0, hy0, rfl⟩ := List.mem_map.mp hy1
      have hxp : ¬ x0.pk = pk := by
        by_cases hc : self.ord < x0.ord
        · simpa [hc] using hx2
        · simpa [hc] using hx2
      have hyp : ¬ y0.pk = pk := by
        by_cases hc : self.ord < y0.ord
        · simpa [hc] using hy2
        · simpa [hc] using hy2
      have hxo : ¬ x0.ord = self.ord := fun he => hxp (by
        rw [ord_inj_visibleIn w hinv (sKey w self) x0 self hx0 hselfmem he]
        exact hspk)
      have hyo : ¬ y0.ord = self.ord := fun he => hyp (by
        rw [ord_inj_visibleIn w hinv (sKey w self) y0 self hy0 hselfmem he]
        exact hspk)
      have hoo : x0.ord = y0.ord := by
        by_cases hcx : self.ord < x0.ord
        · by_cases hcy : self.ord < y0.ord
          · simp [hcx, hcy] at hxy
            omega
          · simp [hcx, hcy] at hxy
            omega
        · by_cases hcy : self.ord < y0.ord
          · simp [hcx, hcy] at hxy
            omega
          · simp [hcx, hcy] at hxy
            omega
      rw [ord_inj_visibleIn w hinv (sKey w self) x0 y0 hx0 hy0 hoo]
    · apply List.Nodup.filter
      refine List.Nodup.of_map ORec.pk ?_
      rw [List.map_map]
      have e1 : (visibleIn w (sKey w self)).map (ORec.pk ∘ (fun r =>
          if self.ord < r.ord then { r with ord := r.ord + (-1) } else r))
          = (visibleIn w (sKey w self)).map ORec.pk := by
        apply List.map_congr_left
        intro r hr
        by_cases hc : self.ord < r.ord
        · simp [Function.comp, hc]
        · simp [Function.comp, hc]
      rw [e1]
      exact hpk.sublist ((List.filter_sublist _).map ORec.pk)
  · rw [visibleIn_shiftWhere_ne w (sKey w self) k0 _ _ hk]
    have e2 : (visibleIn w k0).filter (fun r => decide (¬ r.pk = pk))
        = visibleIn w k0 := by
      rw [List.filter_eq_self]
      intro r hr
      simp only [decide_eq_true_eq]
      intro hp
      have hrself : r = self :=
        eq_self_of_pk w hpk pk self r hf (List.mem_of_mem_filter hr) hp
      apply hk
      have hk0 : sKey w r = k0 := by
        have h2 := (List.mem_filter.mp hr).2
        simp at h2
        exact h2.2
      rw [← hk0, hrself]
    rw [e2]
    exact hinv k0

/-- Helper: every completed `delete` under a record-hiding policy keeps
each scope's order list free of duplicates. -/
theorem deleteOp_preserves (w : OWorld) (pk : Nat) (pol : Pol) (now : Nat)
    (canHard : Bool) (self : ORec)
    (hinv : InvOrders w) (hpk : PkNodup w)
    (hf : OWorld.find w pk = some self) (hd : self.deleted = none)
    (hpol : pol = Pol.softDelete ∨ pol = Pol.hardDelete) :
    ∀ w', deleteOp w pk pol now canHard = .ok w' → InvOrders w' := by
  intro w' hok
  rcases hpol with rfl | rfl
  · simp only [deleteOp, hf] at hok
    cases hok
    intro k0
    rw [orders, visibleIn_markDeletedRow]
    exact delete_hidden_nodup w pk self hinv hpk hf hd k0
  · simp only [deleteOp, hf] at hok
    cases hok
    intro k0
    rw [orders, visibleIn_removeRow]
    exact delete_hidden_nodup w pk self hinv hpk hf hd k0

/-- Helper: every completed `top` keeps each scope's order list free of
duplicates. -/
theorem topOp_preserves (w : OWorld) (pk : Nat) (self : ORec)
    (hinv : InvOrders w) (hpk : PkNodup w)
    (hf : OWorld.find w pk = some self) (hd : self.deleted = none) :
    ∀ w', topOp w pk = .ok w' → InvOrders w' := by
  intro w' hok
  simp only [topOp, hf] at hok
  cases hm : getMinOrder w (sKey w self) with
  | some m =>
      simp only [hm] at hok
      exact toOp_preserves w pk _ self hinv hpk hf hd w' hok
  | none =>
      simp only [hm] at hok
      simp [toOp] at hok

/-- Helper: every completed `bottom` keeps each scope's order list free of
duplicates. -/
theorem bottomOp_preserves (w : OWorld) (pk : Nat) (self : ORec)
    (hinv : InvOrders w) (hpk : PkNodup w)
    (hf : OWorld.find w pk = some self) (hd : self.deleted = none) :
    ∀ w', bottomOp w pk = .ok w' → InvOrders w' := by
  intro w' hok
  simp only [bottomOp, hf] at hok
  cases hm : getMaxOrder w (sKey w self) with
  | some m =>
      simp only [hm] at hok
      exact toOp_preserves w pk _ self hinv hpk hf hd w' hok
  | none =>
      simp only [hm] at hok
      simp [toOp] at hok

/-- Helper: every completed `above` keeps each scope's order list free of
duplicates. -/
theorem aboveOp_preserves (w : OWorld) (a b : Nat) (self : ORec)
    (hinv : InvOrders w) (hpk : PkNodup w)
    (hfa : OWorld.find w a = some self) (hd : self.deleted = none) :
    ∀ w', aboveOp w a b = .ok w' → InvOrders w' := by
  intro w' hok
  simp only [aboveOp, hfa] at hok
  cases hfb : OWorld.find w b with
  | none =>
      simp only [hfb] at hok
      simp at hok
  | some ref =>
      simp only [hfb] at hok
      cases hval : validateOrderingReference w self ref with
      | error e =>
          simp only [hval] at hok
          simp at hok
      | ok u =>
          cases u
          simp only [hval] at hok
          by_cases he : self.ord = ref.ord
          · rw [if_pos he] at hok
            cases hok
            exact hinv
          · rw [if_neg he] at hok
            exact toOp_preserves w a _ self hinv hpk hfa hd w' hok

/-- Helper: every completed `below` keeps each scope's order list free of
duplicates. -/
theorem belowOp_preserves (w : OWorld) (a b : Nat) (self : ORec)
    (hinv : InvOrders w) (hpk : PkNodup w)
    (hfa : OWorld.find w a = some self) (hd : self.deleted = none) :
    ∀ w', belowOp w a b = .ok w' → InvOrders w' := by
  intro w' hok
  simp only [belowOp, hfa] at hok
  cases hfb : OWorld.find w b with
  | none =>
      simp only [hfb] at hok
      simp at hok
  | some ref =>
      simp only [hfb] at hok
      cases hval : validateOrderingReference w self ref with
      | error e =>
          simp only [hval] at hok
          simp at hok
      | ok u =>
          cases u
          simp only [hval] at hok
          by_cases he : self.ord = ref.ord
          · rw [if_pos he] at hok
            cases hok
            exact hinv
          · rw [if_neg he] at hok
            exact toOp_preserves w a _ self hinv hpk hfa hd w' hok

/-- Helper: a save of a fresh row with auto-assigned order keeps each
scope's order list free of duplicates: the assigned `get_next_order` is
strictly above every existing order of its scope. -/
theorem saveNew_preserves (w : OWorld) (pk scope : Nat)
    (hinv : InvOrders w) : InvOrders (saveNew w pk scope none) := by
  intro k0
  have e1 : orders (saveNew w pk scope none) k0
      = orders w k0 ++
          (([(⟨pk, scope, getNextOrder w (if w.respect then scope else 0),
              none⟩ : ORec)]).filter
            (fun r => decide (r.deleted = none ∧ sKey w r = k0))).map
              ORec.ord := by
    simp only [saveNew, Option.getD_none]
    rw [orders, visibleIn_append, List.map_append, orders]
  rw [e1]
  by_cases hk : k0 = (if w.respect then scope else 0)
  · have hkey : sKey w (⟨pk, scope,
        getNextOrder w (if w.respect then scope else 0), none⟩ : ORec) = k0 := by
      rw [hk]
      rfl
    rw [List.filter_cons_of_pos (by simp [hkey])]
    rw [List.nodup_append]
    refine ⟨hinv k0, by simp, ?_⟩
    intro o ho hmem
    simp only [List.filter_nil, List.map_cons, List.map_nil,
      List.mem_singleton] at hmem
    have hlt := lt_getNextOrder w k0 o ho
    rw [hmem, hk] at hlt
    omega
  · have hkey : ¬ sKey w (⟨pk, scope,
        getNextOrder w (if w.respect then scope else 0), none⟩ : ORec) = k0 :=
      fun h => hk h.symm
    rw [List.filter_cons_of_neg (by simp [hkey])]
    simp [hinv k0]

/-- Helper: every completed `swap` keeps each scope's order list free of
duplicates: the two rows exchange order values, a permutation of the
scope's orders. -/
theorem swapOp_preserves (w : OWorld) (a b : Nat) (ra rb : ORec)
    (hinv : InvOrders w) (hpk : PkNodup w)
    (hfa : OWorld.find w a = some ra) (hda : ra.deleted = none)
    (hfb : OWorld.find w b = some rb) (hdb : rb.deleted = none) :
    ∀ w', swapOp w a b = .ok w' → InvOrders w' := by
  intro w' hok
  simp only [swapOp, hfa, hfb] at hok
  cases hval : validateOrderingReference w ra rb with
  | error e =>
      simp only [hval] at hok
      simp at hok
  | ok u =>
      cases u
      simp only [hval] at hok
      cases hok
      have hks : sKey w ra = sKey w rb := sKey_eq_of_validate w ra rb hval
      have hapk : ra.pk = a := pk_of_find w a ra hfa
      have hbpk : rb.pk = b := pk_of_find w b rb hfb
      have halla : ∀ r ∈ w.recs, r.pk = a → r.deleted = none :=
        hall_of_find w hpk a ra hfa hda
      have hallb0 : ∀ r ∈ w.recs, r.pk = b → r.deleted = none :=
        hall_of_find w hpk b rb hfb hdb
      have hallb : ∀ r ∈ (saveRow w a rb.ord).recs,
          r.pk = b → r.deleted = none :=
        hall_saveRow w a rb.ord b hallb0
      have hamem : ra ∈ visibleIn w (sKey w ra) :=
        self_mem_visibleIn w a ra hfa hda
      have hbmem : rb ∈ visibleIn w (sKey w ra) := by
        rw [hks]
        exact self_mem_visibleIn w b rb hfb hdb
      intro k0
      by_cases hk : k0 = sKey w ra
      · subst hk
        have e1 : orders (saveRow (saveRow w a rb.ord) b ra.ord) (sKey w ra)
            = (orders w (sKey w ra)).map (fun o =>
                if o = rb.ord then ra.ord
                else if o = ra.ord then rb.ord else o) := by
          rw [orders, visibleIn_saveRow _ _ _ _ hallb,
            visibleIn_saveRow _ _ _ _ halla, orders]
          simp only [List.map_map]
          apply List.map_congr_left
          intro r hr
          by_cases hpa : r.pk = a
          · have hrra : r = ra :=
              eq_self_of_pk w hpk a ra r hfa (List.mem_of_mem_filter hr) hpa
            subst hrra
            by_cases hab : a = b
            · have hrarb : r = rb := by
                rw [hab] at hfa
                rw [hfa] at hfb
                exact Option.some.inj hfb
              simp [Function.comp, hapk, hab, ← hrarb]
            · have hne : ¬ r.pk = b := by
                rw [hapk]
                exact hab
              by_cases hoe : r.ord = rb.ord
              · simp [Function.comp, hapk, hne, hab, hoe]
              · simp [Function.comp, hapk, hne, hab, hoe]
          · by_cases hpb : r.pk = b
            · have hrrb : r = rb :=
                eq_self_of_pk w hpk b rb r hfb (List.mem_of_mem_filter hr) hpb
              subst hrrb
              have hba : ¬ b = a := fun h => hpa (hpb.trans h)
              simp [Function.comp, hpa, hpb, hba]
            · have hore : ¬ r.ord = ra.ord := fun he => hpa (by
                rw [ord_inj_visibleIn w hinv (sKey w ra) r ra hr hamem he]
                exact hapk)
              have horb : ¬ r.ord = rb.ord := fun he => hpb (by
                rw [ord_inj_visibleIn w hinv (sKey w ra) r rb hr hbmem he]
                exact hbpk)
              simp [Function.comp, hpa, hpb, hore, horb]
        rw [e1]
        apply (hinv (sKey w ra)).map
        intro x y hxy
        have hxy2 : (if x = rb.ord then ra.ord
              else if x = ra.ord then rb.ord else x)
            = (if y = rb.ord then ra.ord
              else if y = ra.ord then rb.ord else y) := hxy
        split_ifs at hxy2 <;> omega
      · have e1 : orders (saveRow (saveRow w a rb.ord) b ra.ord) k0
            = orders w k0 := by
          rw [orders, visibleIn_saveRow _ _ _ _ hallb,
            visibleIn_saveRow _ _ _ _ halla, orders]
          simp only [List.map_map]
          apply List.map_congr_left
          intro r hr
          have hk0 : sKey w r = k0 := by
            have h2 := (List.mem_filter.mp hr).2
            simp at h2
            exact h2.2
          have hpa : ¬ r.pk = a := fun hp => hk (by
            rw [← hk0,
              eq_self_of_pk w hpk a ra r hfa (List.mem_of_mem_filter hr) hp])
          have hpb : ¬ r.pk = b := fun hp => hk (by
            rw [← hk0,
              eq_self_of_pk w hpk b rb r hfb (List.mem_of_mem_filter hr) hp,
              ← hks])
          simp [Function.comp, hpa, hpb]
        rw [e1]
        exact hinv k0

/-- Helper: invariant of the scoped `bulk_create` assignment fold: within
any key `k`, the orders it emits are strictly above the mapping's current
value for `k` when one exists, at or above the table's `get_next_order`
for `k` otherwise, and mutually distinct. -/
theorem assignScoped_ords (w : OWorld) (hresp : w.respect = true) :
    ∀ (objs : List (Nat × Nat)) (m : List (Nat × Int)) (k : Nat),
      ((∀ v, mlook m k = some v →
          ∀ o ∈ ((assignScoped w m objs).filter
            (fun r => decide (r.deleted = none ∧ sKey w r = k))).map ORec.ord,
            v < o)
        ∧ (mlook m k = none →
            ∀ o ∈ ((assignScoped w m objs).filter
              (fun r => decide (r.deleted = none ∧ sKey w r = k))).map
                ORec.ord,
              getNextOrder w k ≤ o)
        ∧ (((assignScoped w m objs).filter
            (fun r => decide (r.deleted = none ∧ sKey w r = k))).map
              ORec.ord).Nodup) := by
  intro objs
  induction objs with
  | nil =>
      intro m k
      exact ⟨fun v _ o ho => absurd ho (by simp [assignScoped]),
        fun _ o ho => absurd ho (by simp [assignScoped]),
        by simp [assignScoped]⟩
  | cons obj rest ih =>
      intro m k
      cases hml : mlook m obj.2 with
      | some v =>
          have ihh := ih ((obj.2, v + 1) :: m) k
          by_cases hks : k = obj.2
          · subst hks
            have hml2 : mlook ((obj.2, v + 1) :: m) obj.2 = some (v + 1) := by
              simp [mlook]
            have hbound := ihh.1 (v + 1) hml2
            have hkey : sKey w (⟨obj.1, obj.2, v + 1, none⟩ : ORec) = obj.2 := by
              simp [sKey, hresp]
            simp only [assignScoped, hml]
            rw [List.filter_cons_of_pos (by simp [hkey]), List.map_cons]
            refine ⟨?_, ?_, ?_⟩
            · intro v0 hv0 o ho
              have hvv : v = v0 := Option.some.inj hv0
              rcases List.mem_cons.mp ho with rfl | hmem
              · show v0 < v + 1
                omega
              · have := hbound o hmem
                omega
            · intro hnone
              exact Option.noConfusion hnone
            · rw [List.nodup_cons]
              refine ⟨fun hm => ?_, ihh.2.2⟩
              have hb := hbound _ hm
              simp at hb
          · have hne : ¬ obj.2 = k := fun h => hks h.symm
            have hml2 : mlook ((obj.2, v + 1) :: m) k = mlook m k := by
              simp [mlook, hne]
            have hkey : ¬ sKey w (⟨obj.1, obj.2, v + 1, none⟩ : ORec) = k := by
              simp [sKey, hresp]
              exact hne
            simp only [assignScoped, hml]
            rw [List.filter_cons_of_neg (by simp [hkey])]
            refine ⟨?_, ?_, ihh.2.2⟩
            · intro v0 hv0 o ho
              exact ihh.1 v0 (by rw [hml2]; exact hv0) o ho
            · intro hnone o ho
              exact ihh.2.1 (by rw [hml2]; exact hnone) o ho
      | none =>
          have ihh := ih ((obj.2, getNextOrder w obj.2) :: m) k
          by_cases hks : k = obj.2
          · subst hks
            have hml2 : mlook ((obj.2, getNextOrder w obj.2) :: m) obj.2
                = some (getNextOrder w obj.2) := by
              simp [mlook]
            have hbound := ihh.1 (getNextOrder w obj.2) hml2
            have hkey : sKey w
                (⟨obj.1, obj.2, getNextOrder w obj.2, none⟩ : ORec) = obj.2 := by
              simp [sKey, hresp]
            simp only [assignScoped, hml]
            rw [List.filter_cons_of_pos (by simp [hkey]), List.map_cons]
            refine ⟨?_, ?_, ?_⟩
            · intro v0 hv0
              exact Option.noConfusion hv0
            · intro _ o ho
              rcases List.mem_cons.mp ho with rfl | hmem
              · exact le_refl _
              · have := hbound o hmem
                omega
            · rw [List.nodup_cons]
              refine ⟨fun hm => ?_, ihh.2.2⟩
              have hb := hbound _ hm
              simp at hb
          · have hne : ¬ obj.2 = k := fun h => hks h.symm
            have hml2 : mlook ((obj.2, getNextOrder w obj.2) :: m) k
                = mlook m k := by
              simp [mlook, hne]
            have hkey : ¬ sKey w
                (⟨obj.1, obj.2, getNextOrder w obj.2, none⟩ : ORec) = k := by
              simp [sKey, hresp]
              exact hne
            simp only [assignScoped, hml]
            rw [List.filter_cons_of_neg (by simp [hkey])]
            refine ⟨?_, ?_, ihh.2.2⟩
            · intro v0 hv0 o ho
              exact ihh.1 v0 (by rw [hml2]; exact hv0) o ho
            · intro hnone o ho
              exact ihh.2.1 (by rw [hml2]; exact hnone) o ho

/-- Helper: invariant of the unscoped `bulk_create` enumeration: the
emitted rows all land in the shared scope key 0, their orders are at or
above the starting point and mutually distinct. -/
theorem assignSeq_ords (w : OWorld) (hresp : w.respect = false) :
    ∀ (objs : List (Nat × Nat)) (n : Int) (k : Nat),
      ((k = 0 →
          (∀ o ∈ ((assignSeq n objs).filter
            (fun r => decide (r.deleted = none ∧ sKey w r = k))).map ORec.ord,
            n ≤ o)
          ∧ (((assignSeq n objs).filter
              (fun r => decide (r.deleted = none ∧ sKey w r = k))).map
                ORec.ord).Nodup)
        ∧ (¬ k = 0 →
            ((assignSeq n objs).filter
              (fun r => decide (r.deleted = none ∧ sKey w r = k))) = [])) := by
  intro objs
  induction objs with
  | nil =>
      intro n k
      exact ⟨fun _ => ⟨fun o ho => absurd ho (by simp [assignSeq]),
        by simp [assignSeq]⟩, fun _ => by simp [assignSeq]⟩
  | cons obj rest ih =>
      intro n k
      have ihh := ih (n + 1) k
      have hkey : sKey w (⟨obj.1, obj.2, n, none⟩ : ORec) = 0 := by
        simp [sKey, hresp]
      by_cases hk : k = 0
      · subst hk
        simp only [assignSeq]
        rw [List.filter_cons_of_pos (by simp [hkey]), List.map_cons]
        refine ⟨fun _ => ⟨?_, ?_⟩, fun h => by simp at h⟩
        · intro o ho
          rcases List.mem_cons.mp ho with rfl | hmem
          · exact le_refl _
          · have := (ihh.1 rfl).1 o hmem
            omega
        · rw [List.nodup_cons]
          refine ⟨fun hm => ?_, (ihh.1 rfl).2⟩
          have := (ihh.1 rfl).1 n hm
          omega
      · have hkne : ¬ sKey w (⟨obj.1, obj.2, n, none⟩ : ORec) = k := by
          rw [hkey]
          exact fun h => hk h.symm
        simp only [assignSeq]
        rw [List.filter_cons_of_neg (by simp [hkne])]
        exact ⟨fun h => absurd h hk, fun _ => ihh.2 hk⟩

/-- Helper: every completed `bulk_create` keeps each scope's order list
free of duplicates: each emitted order is at or above its scope's
`get_next_order`, so above every pre-existing order, and the emitted
orders are mutually distinct. -/
theorem bulkCreateOp_preserves (w : OWorld) (objs : List (Nat × Nat))
    (hinv : InvOrders w) : InvOrders (bulkCreateOp w objs) := by
  intro k0
  by_cases hresp : w.respect = true
  · have e1 : orders (bulkCreateOp w objs) k0
        = orders w k0 ++ ((assignScoped w [] objs).filter
            (fun r => decide (r.deleted = none ∧ sKey w r = k0))).map
              ORec.ord := by
      simp only [bulkCreateOp]
      rw [if_pos hresp, orders, visibleIn_append, List.map_append, orders]
    rw [e1, List.nodup_append]
    have hA := assignScoped_ords w hresp objs [] k0
    refine ⟨hinv k0, hA.2.2, ?_⟩
    intro o ho hmem
    have hge := hA.2.1 rfl o hmem
    have hlt := lt_getNextOrder w k0 o ho
    omega
  · have hrespf : w.respect = false := by
      revert hresp
      cases w.respect <;> simp
    have e1 : orders (bulkCreateOp w objs) k0
        = orders w k0 ++ ((assignSeq (getNextOrder w 0) objs).filter
            (fun r => decide (r.deleted = none ∧ sKey w r = k0))).map
              ORec.ord := by
      simp only [bulkCreateOp]
      rw [if_neg hresp, orders, visibleIn_append, List.map_append, orders]
    rw [e1]
    have hS := assignSeq_ords w hrespf objs (getNextOrder w 0) k0
    by_cases hk : k0 = 0
    · subst hk
      rw [List.nodup_append]
      refine ⟨hinv 0, (hS.1 rfl).2, ?_⟩
      intro o ho hmem
      have hge := (hS.1 rfl).1 o hmem
      have hlt := lt_getNextOrder w 0 o ho
      omega
    · rw [hS.2 hk]
      simp [hinv k0]

/-- Helper: when `order_with_respect_to` is not declared, scope key 0 is
the only inhabited scope, so its duplicate-freedom gives the invariant. -/
theorem invOrders_of_key0 (w : OWorld) (hresp : w.respect = false)
    (h : (orders w 0).Nodup) : InvOrders w := by
  intro k
  by_cases hk : k = 0
  · rw [hk]
    exact h
  · have hempty : w.recs.filter
        (fun r => decide (r.deleted = none ∧ sKey w r = k)) = [] := by
      rw [List.filter_eq_nil_iff]
      intro r hr
      simp [sKey, hresp]
      intro _
      exact fun h0 => hk h0.symm
    rw [orders, visibleIn, hempty]
    exact List.nodup_nil

/-- C2, counterexample: the claim counts soft-deleted rows among the
records whose order values must stay duplicate-free, but a completed
`delete` under `SOFT_DELETE` decrements the non-deleted same-scope rows
above the deleted one (`models.py` lines 318-321) while the soft-deleted
row keeps its order value: starting from orders 0 and 1, deleting the
record at order 0 leaves both stored rows holding order 0. -/
theorem C2_counterexample :
    applyOp ⟨false, [⟨1, 0, 0, none⟩, ⟨2, 0, 1, none⟩]⟩
        (OOp.opDelete 1 Pol.softDelete 5) =
      .ok ⟨false, [⟨1, 0, 0, some 5⟩, ⟨2, 0, 0, none⟩]⟩ ∧
    ¬ (allOrders ⟨false, [⟨1, 0, 0, some 5⟩, ⟨2, 0, 0, none⟩]⟩ 0).Nodup :=
  ⟨rfl, by decide⟩

/-- C2: amended — for every ordering scope, the order values held by the
currently **non-deleted** records of that scope (the rows the ordering
queryset sees) contain no duplicates after any single completed operation
(save with auto-assigned order, `to`, `swap`, `above`, `below`, `top`,
`bottom`, `delete` under a record-hiding policy, `bulk_create`), provided
they contained none before, primary keys are unique, and the operation
acts on existing non-deleted records.  Soft-deleted rows still present in
the table are excluded: the pre-delete decrement can (and does) duplicate
their order values. -/
theorem C2_operations_keep_orders_unique (w : OWorld) (op : OOp)
    (hinv : InvOrders w) (hpk : PkNodup w) (hwf : WFOp w op) :
    ∀ w', applyOp w op = .ok w' → InvOrders w' := by
  intro w' hok
  cases op with
  | opSaveNew pk scope =>
      simp only [applyOp] at hok
      cases hok
      exact saveNew_preserves w pk scope hinv
  | opTo pk arg =>
      obtain ⟨self, hf, hd⟩ := hwf
      simp only [applyOp] at hok
      exact toOp_preserves w pk arg self hinv hpk hf hd w' hok
  | opSwap a b =>
      obtain ⟨⟨ra, hfa, hda⟩, ⟨rb, hfb, hdb⟩⟩ := hwf
      simp only [applyOp] at hok
      exact swapOp_preserves w a b ra rb hinv hpk hfa hda hfb hdb w' hok
  | opAbove a b =>
      obtain ⟨self, hfa, hd⟩ := hwf
      simp only [applyOp] at hok
      exact aboveOp_preserves w a b self hinv hpk hfa hd w' hok
  | opBelow a b =>
      obtain ⟨self, hfa, hd⟩ := hwf
      simp only [applyOp] at hok
      exact belowOp_preserves w a b self hinv hpk hfa hd w' hok
  | opTop pk =>
      obtain ⟨self, hf, hd⟩ := hwf
      simp only [applyOp] at hok
      exact topOp_preserves w pk self hinv hpk hf hd w' hok
  | opBottom pk =>
      obtain ⟨self, hf, hd⟩ := hwf
      simp only [applyOp] at hok
      exact bottomOp_preserves w pk self hinv hpk hf hd w' hok
  | opDelete pk pol now =>
      obtain ⟨⟨self, hf, hd⟩, hpol⟩ := hwf
      simp only [applyOp] at hok
      exact deleteOp_preserves w pk pol now false self hinv hpk hf hd hpol
        w' hok
  | opBulkCreate objs =>
      simp only [applyOp] at hok
      cases hok
      exact bulkCreateOp_preserves w objs hinv

/-- Witness for `C2_operations_keep_orders_unique`: a completed
`to(1)` on the two-row scope [0, 1] yields orders [1, 0] — still
duplicate-free. -/
theorem C2_operations_keep_orders_unique_witness :
    InvOrders ⟨false, [⟨1, 0, 1, none⟩, ⟨2, 0, 0, none⟩]⟩ :=
  C2_operations_keep_orders_unique
    ⟨false, [⟨1, 0, 0, none⟩, ⟨2, 0, 1, none⟩]⟩
    (OOp.opTo 1 (PyArg.pyInt 1))
    (invOrders_of_key0 _ rfl (by decide))
    (by unfold PkNodup; decide)
    (by exact ⟨⟨1, 0, 0, none⟩, rfl, rfl⟩)
    ⟨false, [⟨1, 0, 1, none⟩, ⟨2, 0, 0, none⟩]⟩ rfl

end Safedelete
